import Mathlib

/-!
Verification of the friend-links data generator core: the issue-body
marker-grammar validator, the label-driven grouping pipeline, and the
JSON-to-JavaScript transcoder. Strings are modelled as lists of
characters; machine integers as Nat/Int.
-/

namespace FLG

/-! ## JSON value trees (model of serde_json::Value; numbers as Int) -/

inductive Json where
  | null : Json
  | bool (b : Bool) : Json
  | num (n : Int) : Json
  | str (s : List Char) : Json
  | arr (xs : List Json) : Json
  | obj (fields : List (List Char × Json)) : Json
deriving Repr

/-! ## Marker grammar validator (src/script.rs, get_all_valid_issues) -/

def dataStart : List Char := "<!-- DATA_START -->".toList
def dataEnd : List Char := "<!-- DATA_END -->".toList
def codeBlockStart : List Char := "```json".toList
def codeBlockEnd : List Char := "```".toList

/-- Leftmost index of an occurrence of `pat` in `s` (model of str::find). -/
def findSub (pat : List Char) : List Char → Option Nat
  | [] => if pat.isPrefixOf [] then some 0 else none
  | c :: rest =>
    if pat.isPrefixOf (c :: rest) then some 0
    else (findSub pat rest).map (· + 1)

/-- Greedy count of non-overlapping occurrences, with a skip counter so the
recursion is structural (model of str::matches().count()). -/
def countMatchesGo (pat : List Char) : Nat → List Char → Nat
  | _, [] => 0
  | k + 1, _ :: rest => countMatchesGo pat k rest
  | 0, c :: rest =>
    if pat.isPrefixOf (c :: rest) then 1 + countMatchesGo pat (pat.length - 1) rest
    else countMatchesGo pat 0 rest

def countMatches (pat s : List Char) : Nat := countMatchesGo pat 0 s

/-- Unicode White_Space, as used by Rust str::trim. -/
def isRustWs (c : Char) : Bool :=
  c = ' ' || c = '\t' || c = '\n' || c = '\x0b' || c = '\x0c' || c = '\r'
  || c = '\u0085' || c = '\u00A0' || c = '\u1680'
  || ('\u2000' ≤ c && c ≤ '\u200A')
  || c = '\u2028' || c = '\u2029' || c = '\u202F' || c = '\u205F' || c = '\u3000'

def trimChars (s : List Char) : List Char :=
  ((s.dropWhile isRustWs).reverse.dropWhile isRustWs).reverse

/-- The validation/extraction grammar of get_all_valid_issues, per issue body.
`jsonOk` models the external serde_json validity check. On PASS, returns the
extracted code-block text. -/
def validateBody (jsonOk : List Char → Bool) (body : List Char) : Option (List Char) :=
  match findSub dataStart body, findSub dataEnd body with
  | some i, some j =>
    if j < i then none
    else if ¬(countMatches dataStart body = 1 ∧ countMatches dataEnd body = 1) then none
    else
      let dataSection := trimChars ((body.drop (i + dataStart.length)).take (j - (i + dataStart.length)))
      if ¬(codeBlockStart.isPrefixOf dataSection ∧ codeBlockEnd.isSuffixOf dataSection) then none
      else if ¬(countMatches codeBlockStart dataSection = 1 ∧ countMatches codeBlockEnd dataSection = 2) then none
      else
        let codeBlock := (dataSection.drop codeBlockStart.length).take
          (dataSection.length - codeBlockEnd.length - codeBlockStart.length)
        if jsonOk codeBlock then some codeBlock else none
  | _, _ => none

example : validateBody (fun _ => true) "<!-- DATA_START -->\n```json\n{}\n```\n<!-- DATA_END -->".toList
    = some "\n{}\n".toList := by decide

example : validateBody (fun _ => true) "no markers here".toList = none := by decide

/-! ## Substring occurrence facts -/

/-- `pat` occurs somewhere inside `s` as a contiguous substring. -/
def ContainsSub (pat s : List Char) : Prop := ∃ l r, s = l ++ pat ++ r

theorem isPrefixOf_iff_ex {pat s : List Char} :
    pat.isPrefixOf s = true ↔ ∃ r, s = pat ++ r := by
  induction pat generalizing s with
  | nil => simp [List.isPrefixOf]
  | cons a as ih =>
    cases s with
    | nil => simp [List.isPrefixOf]
    | cons b bs =>
      simp only [List.isPrefixOf, Bool.and_eq_true, beq_iff_eq, ih, List.cons_append,
        List.cons.injEq]
      constructor
      · rintro ⟨rfl, r, rfl⟩; exact ⟨r, rfl, rfl⟩
      · rintro ⟨r, rfl, rfl⟩; exact ⟨rfl, r, rfl⟩

theorem isSuffixOf_iff_ex {pat s : List Char} :
    pat.isSuffixOf s = true ↔ ∃ l, s = l ++ pat := by
  show pat.reverse.isPrefixOf s.reverse = true ↔ _
  rw [isPrefixOf_iff_ex]
  constructor
  · rintro ⟨r, hr⟩
    refine ⟨r.reverse, ?_⟩
    have h2 := congrArg List.reverse hr
    simpa using h2
  · rintro ⟨l, rfl⟩
    exact ⟨l.reverse, by simp⟩

theorem containsSub_of_isPrefixOf {pat s : List Char} (h : pat.isPrefixOf s = true) :
    ContainsSub pat s := by
  obtain ⟨r, rfl⟩ := isPrefixOf_iff_ex.mp h
  exact ⟨[], r, rfl⟩

theorem containsSub_cons {pat : List Char} {c : Char} {s : List Char}
    (h : ContainsSub pat s) : ContainsSub pat (c :: s) := by
  obtain ⟨l, r, rfl⟩ := h
  exact ⟨c :: l, r, rfl⟩

theorem length_le_of_containsSub {pat s : List Char} (h : ContainsSub pat s) :
    pat.length ≤ s.length := by
  obtain ⟨l, r, rfl⟩ := h
  simp [List.length_append]
  omega

theorem countMatchesGo_skip (pat : List Char) (k : Nat) (s : List Char) :
    countMatchesGo pat k s = countMatches pat (s.drop k) := by
  induction s generalizing k with
  | nil => cases k <;> rfl
  | cons c rest ih =>
    cases k with
    | zero => rfl
    | succ k => simpa [countMatchesGo] using ih k

theorem countMatches_cons_pos {pat : List Char} {c : Char} {rest : List Char}
    (hpre : pat.isPrefixOf (c :: rest) = true) :
    countMatches pat (c :: rest) = 1 + countMatches pat (rest.drop (pat.length - 1)) := by
  have h1 : countMatches pat (c :: rest)
      = if pat.isPrefixOf (c :: rest) then 1 + countMatchesGo pat (pat.length - 1) rest
        else countMatchesGo pat 0 rest := rfl
  rw [h1, if_pos hpre, countMatchesGo_skip]

theorem countMatches_cons_neg {pat : List Char} {c : Char} {rest : List Char}
    (hpre : pat.isPrefixOf (c :: rest) = false) :
    countMatches pat (c :: rest) = countMatches pat rest := by
  have h1 : countMatches pat (c :: rest)
      = if pat.isPrefixOf (c :: rest) then 1 + countMatchesGo pat (pat.length - 1) rest
        else countMatchesGo pat 0 rest := rfl
  rw [h1, if_neg (by simp [hpre])]
  rfl

theorem countMatches_eq_zero {pat s : List Char} (h : ¬ ContainsSub pat s) :
    countMatches pat s = 0 := by
  induction s with
  | nil => rfl
  | cons c rest ih =>
    cases hpre : pat.isPrefixOf (c :: rest) with
    | true => exact absurd (containsSub_of_isPrefixOf hpre) h
    | false =>
      rw [countMatches_cons_neg hpre]
      exact ih (fun hc => h (containsSub_cons hc))

theorem countMatches_self_append (pat rest : List Char) (hp : pat ≠ []) :
    countMatches pat (pat ++ rest) = 1 + countMatches pat rest := by
  cases pat with
  | nil => exact absurd rfl hp
  | cons a as =>
    have hpre : (a :: as).isPrefixOf (a :: (as ++ rest)) = true := by
      rw [isPrefixOf_iff_ex]; exact ⟨rest, by simp⟩
    have e1 := countMatches_cons_pos hpre
    have e2 : (as ++ rest).drop ((a :: as).length - 1) = rest := by
      simp only [List.length_cons, Nat.add_sub_cancel]
      exact List.drop_left as rest
    rw [show (a :: as) ++ rest = a :: (as ++ rest) from rfl, e1, e2]

theorem countMatches_append_self_eq_one {pat u : List Char} (hp : pat ≠ [])
    (h : ¬ ContainsSub pat u) : countMatches pat (u ++ pat) = 1 := by
  induction u with
  | nil =>
    have h0 : countMatches pat ([] : List Char) = 0 := rfl
    have h1 := countMatches_self_append pat [] hp
    simpa [h0] using h1
  | cons c u' ih =>
    have hcons : (c :: u') ++ pat = c :: (u' ++ pat) := rfl
    cases hpre : pat.isPrefixOf (c :: (u' ++ pat)) with
    | true =>
      obtain ⟨r, hr⟩ := isPrefixOf_iff_ex.mp hpre
      have hlen : (c :: u').length < pat.length := by
        by_contra hle
        push_neg at hle
        apply h
        have htk : (c :: u').take pat.length = pat := by
          have h2 := congrArg (List.take pat.length) hr
          rw [show c :: (u' ++ pat) = (c :: u') ++ pat from rfl] at h2
          rw [List.take_append_eq_append_take, List.take_left] at h2
          have hz : pat.length - (c :: u').length = 0 := by omega
          rw [hz] at h2
          simpa using h2
        refine ⟨[], (c :: u').drop pat.length, ?_⟩
        have := List.take_append_drop pat.length (c :: u')
        rw [htk] at this
        simpa using this.symm
      have e1 := countMatches_cons_pos hpre
      rw [hcons, e1]
      have hz : countMatches pat ((u' ++ pat).drop (pat.length - 1)) = 0 := by
        apply countMatches_eq_zero
        intro hc
        have h1 := length_le_of_containsSub hc
        have h2 : 0 < pat.length := List.length_pos.mpr hp
        rw [List.length_drop, List.length_append] at h1
        simp [List.length_cons] at hlen
        omega
      rw [hz]
    | false =>
      rw [hcons, countMatches_cons_neg hpre]
      exact ih (fun hc => h (containsSub_cons hc))

theorem containsSub_cons_elim {pat : List Char} {c : Char} {s : List Char}
    (h : ContainsSub pat (c :: s)) :
    pat.isPrefixOf (c :: s) = true ∨ ContainsSub pat s := by
  obtain ⟨l, r, heq⟩ := h
  cases l with
  | nil =>
    left
    rw [isPrefixOf_iff_ex]
    exact ⟨r, by simpa using heq⟩
  | cons a l' =>
    right
    have h2 : c :: s = a :: ((l' ++ pat) ++ r) := heq
    injection h2 with _ h2b
    exact ⟨l', r, h2b⟩

theorem isPrefixOf_cons_of_ne {a b : Char} {as bs : List Char} (h : a ≠ b) :
    (a :: as).isPrefixOf (b :: bs) = false := by
  simp [List.isPrefixOf, h]

/-! ## Counting the fence tokens inside a single well-fenced data section -/

theorem no_closer_in_tagged_content {content : List Char}
    (h : ¬ ContainsSub codeBlockEnd content) :
    ¬ ContainsSub codeBlockEnd ("json".toList ++ content) := by
  have hcb : codeBlockEnd = '`' :: '`' :: '`' :: [] := rfl
  intro hcont
  have e : "json".toList ++ content = 'j' :: 's' :: 'o' :: 'n' :: content := rfl
  rw [e] at hcont
  rcases containsSub_cons_elim hcont with hp | hcont
  · rw [hcb, isPrefixOf_cons_of_ne (by decide)] at hp; exact absurd hp (by simp)
  rcases containsSub_cons_elim hcont with hp | hcont
  · rw [hcb, isPrefixOf_cons_of_ne (by decide)] at hp; exact absurd hp (by simp)
  rcases containsSub_cons_elim hcont with hp | hcont
  · rw [hcb, isPrefixOf_cons_of_ne (by decide)] at hp; exact absurd hp (by simp)
  rcases containsSub_cons_elim hcont with hp | hcont
  · rw [hcb, isPrefixOf_cons_of_ne (by decide)] at hp; exact absurd hp (by simp)
  exact h hcont

theorem closer_count_in_section {content : List Char}
    (h : ¬ ContainsSub codeBlockEnd content) :
    countMatches codeBlockEnd (codeBlockStart ++ content ++ codeBlockEnd) = 2 := by
  have e : codeBlockStart ++ content ++ codeBlockEnd
      = codeBlockEnd ++ (("json".toList ++ content) ++ codeBlockEnd) := by
    simp [codeBlockStart, codeBlockEnd, List.append_assoc]
  rw [e, countMatches_self_append _ _ (by decide),
    countMatches_append_self_eq_one (by decide) (no_closer_in_tagged_content h)]

theorem no_opener_after_content {content : List Char}
    (h : ¬ ContainsSub codeBlockEnd content) :
    ¬ ContainsSub codeBlockStart (content ++ codeBlockEnd) := by
  induction content with
  | nil =>
    intro hc
    have h1 := length_le_of_containsSub hc
    have h2 : codeBlockStart.length = 7 := rfl
    have h3 : (([] : List Char) ++ codeBlockEnd).length = 3 := rfl
    omega
  | cons c t ih =>
    intro hcont
    have e : (c :: t) ++ codeBlockEnd = c :: (t ++ codeBlockEnd) := rfl
    rw [e] at hcont
    rcases containsSub_cons_elim hcont with hp | hcont
    · obtain ⟨r, heq⟩ := isPrefixOf_iff_ex.mp hp
      have hlen := congrArg List.length heq
      simp [List.length_append, codeBlockStart, codeBlockEnd] at hlen
      cases t with
      | nil => simp at hlen
      | cons y t1 =>
        cases t1 with
        | nil => simp at hlen
        | cons z t2 =>
          have hcbs : codeBlockStart = '`' :: '`' :: '`' :: 'j' :: 's' :: 'o' :: 'n' :: [] := rfl
          rw [hcbs] at heq
          have h2 : c :: y :: z :: (t2 ++ codeBlockEnd)
              = '`' :: '`' :: '`' :: ('j' :: 's' :: 'o' :: 'n' :: r) := heq
          injection h2 with hc1 h2; injection h2 with hc2 h2; injection h2 with hc3 h2
          apply h
          refine ⟨[], t2, ?_⟩
          simp [hc1, hc2, hc3, codeBlockEnd]
    · exact ih (fun hx => h (containsSub_cons hx)) hcont

theorem opener_count_in_section {content : List Char}
    (h : ¬ ContainsSub codeBlockEnd content) :
    countMatches codeBlockStart (codeBlockStart ++ content ++ codeBlockEnd) = 1 := by
  rw [List.append_assoc, countMatches_self_append _ _ (by decide),
    countMatches_eq_zero (no_opener_after_content h)]

theorem section_slice_eq_content (content : List Char) :
    ((codeBlockStart ++ content ++ codeBlockEnd).drop codeBlockStart.length).take
      ((codeBlockStart ++ content ++ codeBlockEnd).length
        - codeBlockEnd.length - codeBlockStart.length) = content := by
  have hdrop : (codeBlockStart ++ content ++ codeBlockEnd).drop codeBlockStart.length
      = content ++ codeBlockEnd := by
    rw [List.append_assoc]
    exact List.drop_left ..
  have hlen : (codeBlockStart ++ content ++ codeBlockEnd).length
      - codeBlockEnd.length - codeBlockStart.length = content.length := by
    have l7 : codeBlockStart.length = 7 := rfl
    have l3 : codeBlockEnd.length = 3 := rfl
    simp [List.length_append, l7, l3]
    omega
  rw [hdrop, hlen]
  exact List.take_left ..

/-- **C1.** A body with exactly one occurrence of each marker, start marker
first, whose trimmed inter-marker region is a single correctly fenced
json code block with valid fence content, PASSES validation and the
extracted text is exactly the fence content (so any JSON parser applied to
the extraction yields the same value as on the original fence content). -/
theorem validator_pass_extracts_exact (jsonOk : List Char → Bool)
    (body content : List Char) (i j : Nat)
    (hi : findSub dataStart body = some i)
    (hj : findSub dataEnd body = some j)
    (horder : i < j)
    (hone : countMatches dataStart body = 1)
    (hone' : countMatches dataEnd body = 1)
    (hsec : trimChars ((body.drop (i + dataStart.length)).take (j - (i + dataStart.length)))
      = codeBlockStart ++ content ++ codeBlockEnd)
    (hnof : ¬ ContainsSub codeBlockEnd content)
    (hjson : jsonOk content = true) :
    validateBody jsonOk body = some content := by
  have hpre : codeBlockStart.isPrefixOf (codeBlockStart ++ content ++ codeBlockEnd) = true := by
    rw [isPrefixOf_iff_ex]
    exact ⟨content ++ codeBlockEnd, by rw [List.append_assoc]⟩
  have hsuf : codeBlockEnd.isSuffixOf (codeBlockStart ++ content ++ codeBlockEnd) = true := by
    rw [isSuffixOf_iff_ex]
    exact ⟨codeBlockStart ++ content, rfl⟩
  unfold validateBody
  rw [hi, hj]
  simp only [hsec]
  rw [if_neg (by omega)]
  rw [if_neg (by simp [hone, hone'])]
  rw [if_neg (not_not_intro ⟨hpre, hsuf⟩)]
  rw [if_neg (not_not_intro ⟨opener_count_in_section hnof, closer_count_in_section hnof⟩)]
  rw [section_slice_eq_content, if_pos hjson]

/-! ## Facts about findSub -/

theorem findSub_isSome_iff {pat s : List Char} :
    (findSub pat s).isSome = true ↔ ContainsSub pat s := by
  induction s with
  | nil =>
    by_cases hp : pat = []
    · subst hp
      simp only [findSub, List.isPrefixOf, if_true]
      simp only [Option.isSome_some, true_iff]
      exact ⟨[], [], rfl⟩
    · have h1 : pat.isPrefixOf ([] : List Char) = false := by
        cases pat with
        | nil => exact absurd rfl hp
        | cons a as => rfl
      simp only [findSub, h1, Bool.false_eq_true, if_false, Option.isSome_none,
        false_iff]
      rintro ⟨l, r, heq⟩
      apply hp
      cases l with
      | cons a l' => simp at heq
      | nil =>
        cases pat with
        | nil => rfl
        | cons b pb => simp at heq
  | cons c rest ih =>
    cases hp : pat.isPrefixOf (c :: rest) with
    | true =>
      simp only [findSub, hp, if_true, Option.isSome_some, true_iff]
      exact containsSub_of_isPrefixOf hp
    | false =>
      have e : findSub pat (c :: rest) = (findSub pat rest).map (· + 1) := by
        simp [findSub, hp]
      have hiso : ((findSub pat rest).map (· + 1)).isSome = (findSub pat rest).isSome := by
        cases findSub pat rest <;> rfl
      rw [e, hiso, ih]
      constructor
      · exact containsSub_cons
      · intro h
        rcases containsSub_cons_elim h with h' | h'
        · rw [hp] at h'; exact absurd h' (by simp)
        · exact h'

theorem findSub_some_imp {pat s : List Char} {k : Nat} (h : findSub pat s = some k) :
    pat.isPrefixOf (s.drop k) = true ∧ k ≤ s.length := by
  induction s generalizing k with
  | nil =>
    have e : findSub pat ([] : List Char)
        = if pat.isPrefixOf ([] : List Char) then some 0 else none := rfl
    rw [e] at h
    by_cases hp : pat.isPrefixOf ([] : List Char) = true
    · rw [if_pos hp] at h
      injection h with h
      subst h
      exact ⟨hp, Nat.le_refl _⟩
    · rw [if_neg hp] at h
      exact absurd h (by simp)
  | cons c rest ih =>
    cases hp : pat.isPrefixOf (c :: rest) with
    | true =>
      simp only [findSub, hp, if_true, Option.some.injEq] at h
      subst h
      exact ⟨hp, Nat.zero_le _⟩
    | false =>
      have e : findSub pat (c :: rest) = (findSub pat rest).map (· + 1) := by
        simp [findSub, hp]
      rw [e] at h
      cases hf : findSub pat rest with
      | none => rw [hf] at h; exact absurd h (by simp)
      | some k' =>
        rw [hf] at h
        have h' : some (k' + 1) = some k := h
        injection h' with h'
        subst h'
        obtain ⟨h1, h2⟩ := ih hf
        exact ⟨h1, by simp only [List.length_cons]; omega⟩

theorem findSub_some_le_length {pat s : List Char} {k : Nat}
    (h : findSub pat s = some k) : k + pat.length ≤ s.length := by
  obtain ⟨h1, h2⟩ := findSub_some_imp h
  obtain ⟨r, hr⟩ := isPrefixOf_iff_ex.mp h1
  have := congrArg List.length hr
  rw [List.length_drop, List.length_append] at this
  omega

/-- One-step reduction of validateBody once both markers are found. -/
theorem validateBody_found (jsonOk : List Char → Bool) (body : List Char) (i j : Nat)
    (hi : findSub dataStart body = some i) (hj : findSub dataEnd body = some j) :
    validateBody jsonOk body =
      (if j < i then none
       else if ¬(countMatches dataStart body = 1 ∧ countMatches dataEnd body = 1) then none
       else
         let dataSection := trimChars ((body.drop (i + dataStart.length)).take (j - (i + dataStart.length)))
         if ¬(codeBlockStart.isPrefixOf dataSection = true ∧ codeBlockEnd.isSuffixOf dataSection = true) then none
         else if ¬(countMatches codeBlockStart dataSection = 1 ∧ countMatches codeBlockEnd dataSection = 2) then none
         else
           let codeBlock := (dataSection.drop codeBlockStart.length).take
             (dataSection.length - codeBlockEnd.length - codeBlockStart.length)
           if jsonOk codeBlock = true then some codeBlock else none) := by
  unfold validateBody
  rw [hi, hj]

/-- **C5.** A body missing either marker, containing either marker more than
once, or whose end marker's first occurrence precedes the start marker's
first occurrence, FAILS validation and contributes no entry. -/
theorem validator_fail_marker_conditions (jsonOk : List Char → Bool) (body : List Char)
    (h : ¬ ContainsSub dataStart body ∨ ¬ ContainsSub dataEnd body
       ∨ 1 < countMatches dataStart body ∨ 1 < countMatches dataEnd body
       ∨ ∃ i j, findSub dataStart body = some i ∧ findSub dataEnd body = some j ∧ j < i) :
    validateBody jsonOk body = none := by
  cases hfs : findSub dataStart body with
  | none => unfold validateBody; rw [hfs]
  | some i =>
    cases hfe : findSub dataEnd body with
    | none => unfold validateBody; rw [hfs, hfe]
    | some j =>
      rw [validateBody_found jsonOk body i j hfs hfe]
      rcases h with h | h | h | h | ⟨i', j', hi', hj', hor⟩
      · exact absurd (findSub_isSome_iff.mp (by rw [hfs]; rfl)) h
      · exact absurd (findSub_isSome_iff.mp (by rw [hfe]; rfl)) h
      · by_cases hji : j < i
        · rw [if_pos hji]
        · rw [if_neg hji, if_pos (by omega)]
      · by_cases hji : j < i
        · rw [if_pos hji]
        · rw [if_neg hji, if_pos (by omega)]
      · rw [hfs] at hi'
        rw [hfe] at hj'
        injection hi' with hi'
        injection hj' with hj'
        subst hi'
        subst hj'
        rw [if_pos hor]

/-- **C6.** If the trimmed data section starts with the fence opener and ends
with the fence closer but the opener does not occur exactly once or the
closer does not occur exactly twice in it, validation FAILS. -/
theorem validator_fail_token_counts (jsonOk : List Char → Bool) (body D : List Char)
    (i j : Nat)
    (hi : findSub dataStart body = some i) (hj : findSub dataEnd body = some j)
    (horder : ¬ j < i)
    (hcounts : countMatches dataStart body = 1 ∧ countMatches dataEnd body = 1)
    (hD : trimChars ((body.drop (i + dataStart.length)).take (j - (i + dataStart.length))) = D)
    (hpre : codeBlockStart.isPrefixOf D = true)
    (hsuf : codeBlockEnd.isSuffixOf D = true)
    (hbad : ¬(countMatches codeBlockStart D = 1 ∧ countMatches codeBlockEnd D = 2)) :
    validateBody jsonOk body = none := by
  rw [validateBody_found jsonOk body i j hi hj, if_neg horder,
    if_neg (not_not_intro hcounts)]
  simp only [hD]
  rw [if_neg (not_not_intro ⟨hpre, hsuf⟩), if_pos hbad]

/-- **C10.** The byte-slice index arithmetic of the validator is always in
bounds: after the order check, the region between the markers satisfies
`i + |start| ≤ j ≤ |body| - |end|`, and a trimmed section that is both
opener-prefixed and closer-suffixed is at least `|opener| + |closer|` long,
so both raw extractions are well defined on every input body. -/
theorem validator_slices_in_bounds (body : List Char) (i j : Nat)
    (hi : findSub dataStart body = some i) (hj : findSub dataEnd body = some j)
    (horder : ¬ j < i) :
    (i + dataStart.length ≤ j ∧ j + dataEnd.length ≤ body.length) ∧
    (∀ D : List Char, codeBlockStart.isPrefixOf D = true →
      codeBlockEnd.isSuffixOf D = true →
      codeBlockStart.length + codeBlockEnd.length ≤ D.length) := by
  constructor
  · have hjlen := findSub_some_le_length hj
    refine ⟨?_, hjlen⟩
    obtain ⟨hp1, hile⟩ := findSub_some_imp hi
    obtain ⟨hp2, _⟩ := findSub_some_imp hj
    obtain ⟨r1, hr1⟩ := isPrefixOf_iff_ex.mp hp1
    obtain ⟨r2, hr2⟩ := isPrefixOf_iff_ex.mp hp2
    by_contra hlt
    push_neg at hlt
    have hds : dataStart.length = 19 := rfl
    have hd18 : j - i ≤ 18 := by omega
    have hdrop : (body.drop i).drop (j - i) = body.drop j := by
      rw [List.drop_drop]
      congr 1
      omega
    rw [hr1, hr2] at hdrop
    rw [List.drop_append_eq_append_drop] at hdrop
    have hr1z : (j - i) - dataStart.length = 0 := by omega
    rw [hr1z, List.drop_zero] at hdrop
    have hchar : dataStart[j - i]? = some '<' := by
      have h0 := congrArg (fun t => t[0]?) hdrop
      simp only at h0
      rw [List.getElem?_append_left (by rw [List.length_drop]; omega)] at h0
      rw [List.getElem?_drop] at h0
      rw [List.getElem?_append_left (by decide)] at h0
      simpa using h0
    have hd0 : j - i = 0 := by
      have hd18' := hd18
      set d := j - i with hd
      interval_cases d
      · rfl
      all_goals exact absurd hchar (by decide)
    have hij : i = j := by omega
    subst hij
    rw [hr2] at hr1
    have h10 := congrArg (fun t => t[10]?) hr1
    simp only at h10
    rw [List.getElem?_append_left (by decide), List.getElem?_append_left (by decide)] at h10
    exact absurd h10 (by decide)
  · intro D hpre hsuf
    obtain ⟨a, hA⟩ := isPrefixOf_iff_ex.mp hpre
    obtain ⟨b, hB⟩ := isSuffixOf_iff_ex.mp hsuf
    by_contra hlt
    push_neg at hlt
    have l7 : codeBlockStart.length = 7 := rfl
    have l3 : codeBlockEnd.length = 3 := rfl
    rw [l7, l3] at hlt
    have hla := congrArg List.length hA
    have hlb := congrArg List.length hB
    rw [List.length_append, l7] at hla
    rw [List.length_append, l3] at hlb
    have h1 : D[b.length]? = some '`' := by
      rw [hB, List.getElem?_append_right (Nat.le_refl _), Nat.sub_self]
      decide
    have h2 : D[b.length]? = codeBlockStart[b.length]? := by
      rw [hA]
      exact List.getElem?_append_left (by omega)
    rw [h2] at h1
    have hcase : b.length = 4 ∨ b.length = 5 ∨ b.length = 6 := by omega
    rcases hcase with h | h | h <;> rw [h] at h1 <;> exact absurd h1 (by decide)

/-- Concrete instance of the PASS theorem. -/
theorem validator_pass_extracts_exact_witness :
    validateBody (fun _ => true)
      "<!-- DATA_START -->\n```json\n{}\n```\n<!-- DATA_END -->".toList
      = some "\n{}\n".toList :=
  validator_pass_extracts_exact (fun _ => true) _ "\n{}\n".toList 0 35
    (by decide) (by decide) (by decide) (by decide) (by decide) (by decide)
    (fun hc => absurd (findSub_isSome_iff.mpr hc) (by decide)) rfl

/-- Concrete instance of the marker-failure theorem: a body with no markers. -/
theorem validator_fail_marker_conditions_witness :
    validateBody (fun _ => true) "hello".toList = none :=
  validator_fail_marker_conditions (fun _ => true) "hello".toList
    (Or.inl (fun hc => absurd (findSub_isSome_iff.mpr hc) (by decide)))

/-- Concrete instance of the token-count failure theorem: two code blocks. -/
theorem validator_fail_token_counts_witness :
    validateBody (fun _ => true)
      "<!-- DATA_START -->\n```json\n{}\n```\n```json\n[]\n```\n<!-- DATA_END -->".toList
      = none :=
  validator_fail_token_counts (fun _ => true)
    "<!-- DATA_START -->\n```json\n{}\n```\n```json\n[]\n```\n<!-- DATA_END -->".toList
    "```json\n{}\n```\n```json\n[]\n```".toList 0 50
    (by decide) (by decide) (by decide) (by decide) (by decide)
    (by decide) (by decide) (by decide)

/-- Concrete instance of the bounds theorem. -/
theorem validator_slices_in_bounds_witness :
    (0 + dataStart.length ≤ 35 ∧ 35 + dataEnd.length ≤
      ("<!-- DATA_START -->\n```json\n{}\n```\n<!-- DATA_END -->".toList).length)
    ∧ codeBlockStart.length + codeBlockEnd.length ≤ ("```json\n{}\n```".toList).length := by
  have h := validator_slices_in_bounds
    "<!-- DATA_START -->\n```json\n{}\n```\n<!-- DATA_END -->".toList 0 35
    (by decide) (by decide) (by decide)
  exact ⟨h.1, h.2 "```json\n{}\n```".toList (by decide) (by decide)⟩

/-! ## Data model (config.rs, link_entry.rs, github_api_responses.rs) -/

structure LabelRec where
  id : Nat
  name : String
  description : String
deriving Repr, DecidableEq

structure GroupConfig where
  name : String
  description : String
  label : String
deriving Repr, DecidableEq

structure GenerationConfig where
  label : String
  sort_by_updated_time : Bool
deriving Repr, DecidableEq

structure Issue where
  id : Nat
  url : String
  number : Nat
  state : String
  title : String
  body : List Char
  labels : List LabelRec
  closed_at : Option String
  created_at : String
  updated_at : String

structure LinkEntry where
  id : Nat
  labels : List String
  json_data : Json
  created_at : String
  updated_at : String

/-! ## Pipeline (script.rs) -/

/-- Validated issues to entries (get_all_valid_issues). `parseJson` models
serde_json::from_str; the payload parse cannot fail after validation, so the
`getD` default mirrors the unreachable expect branch. -/
def get_all_valid_issues (parseJson : List Char → Option Json) (issues : List Issue) :
    List LinkEntry :=
  issues.filterMap (fun issue =>
    match validateBody (fun s => (parseJson s).isSome) issue.body with
    | some cb => some { id := issue.id, labels := issue.labels.map (·.name),
                        json_data := (parseJson cb).getD Json.null,
                        created_at := issue.created_at, updated_at := issue.updated_at }
    | none => none)

def get_all_active_entries (label : String) (issues : List LinkEntry) : List LinkEntry :=
  issues.filter (fun issue => issue.labels.contains label)

/-- The group map initialisation in main: one empty bucket per configured label. -/
def initGroupMap (groups : List GroupConfig) : String → Option (List LinkEntry) :=
  groups.foldl (fun m g => fun l => if l = g.label then some [] else m l) (fun _ => none)

/-- HashMap entry or_default push. -/
def pushEntry (m : String → Option (List LinkEntry)) (k : String) (e : LinkEntry) :
    String → Option (List LinkEntry) :=
  fun l => if l = k then some ((m k).getD [] ++ [e]) else m l

/-- The inner loop of main: push the entry into every group whose label it carries. -/
def addEntryToGroups (groups : List GroupConfig) (m : String → Option (List LinkEntry))
    (e : LinkEntry) : String → Option (List LinkEntry) :=
  groups.foldl (fun m g => if e.labels.contains g.label then pushEntry m g.label e else m) m

/-- The grouping loop of main. -/
def group_to_entry_map (groups : List GroupConfig) (entries : List LinkEntry) :
    String → Option (List LinkEntry) :=
  entries.foldl (addEntryToGroups groups) (initGroupMap groups)

/-- generate_json (script.rs): one JSON object per configured group whose
label is present in the map, in configuration order. -/
def generate_json (groups : List GroupConfig) (m : String → Option (List LinkEntry)) :
    List Json :=
  groups.foldl (fun acc g =>
    match m g.label with
    | some entries => acc ++ [Json.obj
        [("group".toList, Json.str g.label.toList),
         ("groupName".toList, Json.str g.name.toList),
         ("groupDesc".toList, Json.str g.description.toList),
         ("entries".toList, Json.arr (entries.map (fun e => e.json_data)))]]
    | none => acc) []

/-- The core pipeline of main after the fetch: validate, filter actives,
group, assemble. The sort_by_updated_time flag is carried in the
configuration but, as in the source, never read. -/
def runPipeline (parseJson : List Char → Option Json) (generation : GenerationConfig)
    (groups : List GroupConfig) (issues : List Issue) : List Json :=
  generate_json groups
    (group_to_entry_map groups
      (get_all_active_entries generation.label (get_all_valid_issues parseJson issues)))

/-! ## Grouping facts -/

theorem initGroupMap_at (groups : List GroupConfig) (l : String) :
    initGroupMap groups l
      = if l ∈ groups.map GroupConfig.label then some [] else none := by
  suffices h : ∀ m0 : String → Option (List LinkEntry),
      (groups.foldl (fun m g => fun l' => if l' = g.label then some [] else m l') m0) l
        = if l ∈ groups.map GroupConfig.label then some [] else m0 l by
    exact h _
  induction groups with
  | nil => intro m0; simp
  | cons g gs ih =>
    intro m0
    simp only [List.foldl_cons, List.map_cons, List.mem_cons]
    rw [ih]
    by_cases h1 : l ∈ gs.map GroupConfig.label
    · simp [h1]
    · by_cases h2 : l = g.label <;> simp [h1, h2]

theorem addEntryToGroups_at (groups : List GroupConfig)
    (m : String → Option (List LinkEntry)) (e : LinkEntry) (l : String) :
    addEntryToGroups groups m e l =
      if e.labels.contains l = true ∧ l ∈ groups.map GroupConfig.label
      then some ((m l).getD [] ++
        List.replicate (groups.countP (fun g => g.label == l)) e)
      else m l := by
  induction groups generalizing m with
  | nil => simp [addEntryToGroups]
  | cons g gs ih =>
    have hstep : addEntryToGroups (g :: gs) m e
        = addEntryToGroups gs
            (if e.labels.contains g.label then pushEntry m g.label e else m) e := rfl
    rw [hstep, ih]
    by_cases hc : e.labels.contains g.label = true
    · rw [if_pos hc]
      by_cases hgl : g.label = l
      · subst hgl
        have hpe : pushEntry m g.label e g.label = some ((m g.label).getD [] ++ [e]) := by
          simp [pushEntry]
        rw [hpe]
        by_cases hmem : g.label ∈ gs.map GroupConfig.label
        · have hcond1 : e.labels.contains g.label = true
              ∧ g.label ∈ gs.map GroupConfig.label := ⟨hc, hmem⟩
          have hcond2 : e.labels.contains g.label = true
              ∧ g.label ∈ (g :: gs).map GroupConfig.label := ⟨hc, by simp⟩
          rw [if_pos hcond1, if_pos hcond2]
          simp [List.countP_cons, List.replicate_succ, List.append_assoc]
        · have hcond2 : e.labels.contains g.label = true
              ∧ g.label ∈ (g :: gs).map GroupConfig.label := ⟨hc, by simp⟩
          rw [if_neg (fun hand => hmem hand.2), if_pos hcond2]
          have hk : gs.countP (fun g' => g'.label == g.label) = 0 := by
            rw [List.countP_eq_zero]
            intro a ha hba
            exact hmem (List.mem_map.mpr ⟨a, ha, by simpa using hba⟩)
          simp [List.countP_cons, hk]
      · have hpl : pushEntry m g.label e l = m l := if_neg (fun h => hgl h.symm)
        rw [hpl]
        have hpg : (GroupConfig.label g == l) = false := by simpa using hgl
        simp [List.countP_cons, hpg, Ne.symm hgl]
    · rw [if_neg hc]
      by_cases hgl : g.label = l
      · subst hgl
        rw [if_neg (fun hand => hc hand.1), if_neg (fun hand => hc hand.1)]
      · have hpg : (GroupConfig.label g == l) = false := by simpa using hgl
        simp [List.countP_cons, hpg, Ne.symm hgl]

theorem group_fold_at (groups : List GroupConfig) (entries : List LinkEntry)
    (l : String) (hmem : l ∈ groups.map GroupConfig.label) :
    ∀ (m0 : String → Option (List LinkEntry)) (b0 : List LinkEntry), m0 l = some b0 →
    (entries.foldl (addEntryToGroups groups) m0) l
      = some (b0 ++ (entries.filter (fun e => e.labels.contains l)).flatMap
          (fun e => List.replicate (groups.countP (fun g => g.label == l)) e)) := by
  induction entries with
  | nil =>
    intro m0 b0 h0
    simpa using h0
  | cons e es ih =>
    intro m0 b0 h0
    simp only [List.foldl_cons]
    by_cases hcl : e.labels.contains l = true
    · have hcond : e.labels.contains l = true ∧ l ∈ groups.map GroupConfig.label :=
        ⟨hcl, hmem⟩
      have h1 : (addEntryToGroups groups m0 e) l
          = some (b0 ++ List.replicate (groups.countP (fun g => g.label == l)) e) := by
        rw [addEntryToGroups_at, if_pos hcond, h0]
        rfl
      rw [ih _ _ h1,
        List.filter_cons_of_pos (p := fun x : LinkEntry => x.labels.contains l) hcl,
        List.flatMap_cons, List.append_assoc]
    · have h1 : (addEntryToGroups groups m0 e) l = some b0 := by
        rw [addEntryToGroups_at, if_neg (fun hand => hcl hand.1)]
        exact h0
      rw [ih _ _ h1,
        List.filter_cons_of_neg (p := fun x : LinkEntry => x.labels.contains l) hcl]

theorem group_to_entry_map_at (groups : List GroupConfig) (entries : List LinkEntry)
    (l : String) :
    group_to_entry_map groups entries l
      = if l ∈ groups.map GroupConfig.label
        then some ((entries.filter (fun e => e.labels.contains l)).flatMap
          (fun e => List.replicate (groups.countP (fun g => g.label == l)) e))
        else none := by
  by_cases hmem : l ∈ groups.map GroupConfig.label
  · rw [if_pos hmem]
    have h0 : initGroupMap groups l = some [] := by
      rw [initGroupMap_at, if_pos hmem]
    have h := group_fold_at groups entries l hmem (initGroupMap groups) [] h0
    simpa using h
  · rw [if_neg hmem]
    have huntouched : ∀ m0 : String → Option (List LinkEntry),
        (entries.foldl (addEntryToGroups groups) m0) l = m0 l := by
      intro m0
      induction entries generalizing m0 with
      | nil => rfl
      | cons e es ih2 =>
        simp only [List.foldl_cons]
        rw [ih2, addEntryToGroups_at, if_neg (fun hand => hmem hand.2)]
    rw [show group_to_entry_map groups entries
        = entries.foldl (addEntryToGroups groups) (initGroupMap groups) from rfl]
    rw [huntouched, initGroupMap_at, if_neg hmem]

/-- **C2.** For every entry of the input set and every configured group, the
entry is in that group's bucket iff its label set contains both the selector
label and that group's label. -/
theorem grouping_membership_iff (entries : List LinkEntry) (selector : String)
    (groups : List GroupConfig) (g : GroupConfig) (e : LinkEntry)
    (hg : g ∈ groups) (he : e ∈ entries) :
    e ∈ ((group_to_entry_map groups
          (get_all_active_entries selector entries)) g.label).getD []
      ↔ (selector ∈ e.labels ∧ g.label ∈ e.labels) := by
  have hmem : g.label ∈ groups.map GroupConfig.label :=
    List.mem_map_of_mem _ hg
  rw [group_to_entry_map_at, if_pos hmem]
  simp only [Option.getD_some]
  rw [List.mem_flatMap]
  constructor
  · rintro ⟨x, hx, hex⟩
    rw [List.mem_replicate] at hex
    obtain ⟨-, rfl⟩ := hex
    rw [List.mem_filter] at hx
    obtain ⟨hx1, hx2⟩ := hx
    rw [show get_all_active_entries selector entries
        = entries.filter (fun issue => issue.labels.contains selector) from rfl] at hx1
    rw [List.mem_filter] at hx1
    exact ⟨List.elem_iff.mp hx1.2, List.elem_iff.mp hx2⟩
  · rintro ⟨hsel, hgl⟩
    have hcnt : 0 < groups.countP (fun g' => g'.label == g.label) := by
      rw [List.countP_pos_iff]
      exact ⟨g, hg, by simp⟩
    refine ⟨e, ?_, ?_⟩
    · rw [List.mem_filter]
      refine ⟨?_, List.elem_iff.mpr hgl⟩
      rw [show get_all_active_entries selector entries
          = entries.filter (fun issue => issue.labels.contains selector) from rfl]
      rw [List.mem_filter]
      exact ⟨he, List.elem_iff.mpr hsel⟩
    · rw [List.mem_replicate]
      exact ⟨by omega, rfl⟩

/-- Concrete instance of the grouping membership theorem. -/
theorem grouping_membership_iff_witness :
    (({ id := 1, labels := ["approved", "cat-a"], json_data := Json.null,
        created_at := "", updated_at := "" } : LinkEntry) ∈
      ((group_to_entry_map [{ name := "Cat A", description := "d", label := "cat-a" }]
        (get_all_active_entries "approved"
          [{ id := 1, labels := ["approved", "cat-a"], json_data := Json.null,
             created_at := "", updated_at := "" }])) "cat-a").getD []
      ↔ ("approved" ∈ (["approved", "cat-a"] : List String)
         ∧ "cat-a" ∈ (["approved", "cat-a"] : List String))) :=
  grouping_membership_iff
    [{ id := 1, labels := ["approved", "cat-a"], json_data := Json.null,
       created_at := "", updated_at := "" }]
    "approved"
    [{ name := "Cat A", description := "d", label := "cat-a" }]
    { name := "Cat A", description := "d", label := "cat-a" }
    { id := 1, labels := ["approved", "cat-a"], json_data := Json.null,
      created_at := "", updated_at := "" }
    (by simp) (by simp)

theorem generate_json_eq (groups : List GroupConfig)
    (m : String → Option (List LinkEntry))
    (h : ∀ g ∈ groups, (m g.label).isSome = true) :
    generate_json groups m = groups.map (fun g => Json.obj
      [("group".toList, Json.str g.label.toList),
       ("groupName".toList, Json.str g.name.toList),
       ("groupDesc".toList, Json.str g.description.toList),
       ("entries".toList, Json.arr (((m g.label).getD []).map
         (fun e => e.json_data)))]) := by
  suffices hgen : ∀ acc : List Json,
      (∀ g ∈ groups, (m g.label).isSome = true) →
      groups.foldl (fun acc g =>
        match m g.label with
        | some entries => acc ++ [Json.obj
            [("group".toList, Json.str g.label.toList),
             ("groupName".toList, Json.str g.name.toList),
             ("groupDesc".toList, Json.str g.description.toList),
             ("entries".toList, Json.arr (entries.map (fun e => e.json_data)))]]
        | none => acc) acc
        = acc ++ groups.map (fun g => Json.obj
            [("group".toList, Json.str g.label.toList),
             ("groupName".toList, Json.str g.name.toList),
             ("groupDesc".toList, Json.str g.description.toList),
             ("entries".toList, Json.arr (((m g.label).getD []).map
               (fun e => e.json_data)))]) by
    simpa using hgen [] h
  clear h
  induction groups with
  | nil => intro acc h; simp
  | cons g gs ih =>
    intro acc h
    obtain ⟨b, hb⟩ : ∃ b, m g.label = some b := by
      have hs := h g (by simp)
      cases hml : m g.label with
      | none => rw [hml] at hs; exact absurd hs (by simp)
      | some b => exact ⟨b, rfl⟩
    simp only [List.foldl_cons, List.map_cons, hb]
    rw [ih _ (fun g' hg' => h g' (by simp [hg']))]
    simp [List.append_assoc]

/-- **C3.** The assembled output has exactly one group object per configured
group, in configuration order, each carrying group label, name, description,
and the member entries' JSON payloads; groups with empty buckets are still
present. -/
theorem assembled_output_per_group (groups : List GroupConfig)
    (entries : List LinkEntry) :
    generate_json groups (group_to_entry_map groups entries)
      = groups.map (fun g => Json.obj
          [("group".toList, Json.str g.label.toList),
           ("groupName".toList, Json.str g.name.toList),
           ("groupDesc".toList, Json.str g.description.toList),
           ("entries".toList, Json.arr
             ((((group_to_entry_map groups entries) g.label).getD []).map
               (fun e => e.json_data)))])
    ∧ (generate_json groups (group_to_entry_map groups entries)).length
        = groups.length := by
  have h := generate_json_eq groups (group_to_entry_map groups entries) ?hsome
  case hsome =>
    intro g hg
    rw [group_to_entry_map_at, if_pos (List.mem_map_of_mem _ hg)]
    rfl
  exact ⟨h, by rw [h, List.length_map]⟩

/-- **C9.** Two runs over identical issues and identical configuration except
for the sort_by_updated_time flag produce identical output documents. -/
theorem sort_flag_no_influence (parseJson : List Char → Option Json) (label : String)
    (b1 b2 : Bool) (groups : List GroupConfig) (issues : List Issue) :
    runPipeline parseJson { label := label, sort_by_updated_time := b1 } groups issues
      = runPipeline parseJson { label := label, sort_by_updated_time := b2 } groups issues := rfl

/-! ## JSON to JavaScript transcoder (json_to_js.rs) -/

def identHeadChar (c : Char) : Bool :=
  ('a' ≤ c && c ≤ 'z') || ('A' ≤ c && c ≤ 'Z') || c = '_' || c = '$'

def identTailChar (c : Char) : Bool :=
  identHeadChar c || ('0' ≤ c && c ≤ '9')

/-- The anchored regex of is_valid_js_identifier. -/
def matchesIdentRegex : List Char → Bool
  | [] => false
  | c :: cs => identHeadChar c && cs.all identTailChar

def reservedWords : List (List Char) :=
  ["class".toList, "const".toList, "let".toList, "var".toList, "function".toList,
   "return".toList, "if".toList, "else".toList, "for".toList, "while".toList,
   "do".toList, "switch".toList, "case".toList, "default".toList, "break".toList,
   "continue".toList, "try".toList, "catch".toList, "finally".toList, "throw".toList,
   "new".toList, "this".toList, "super".toList, "extends".toList, "import".toList,
   "export".toList, "from".toList, "as".toList, "async".toList, "await".toList,
   "yield".toList, "static".toList, "public".toList, "private".toList, "protected".toList]

def is_valid_js_identifier (name : List Char) : Bool :=
  matchesIdentRegex name && !(reservedWords.contains name)

/-- str::replace for a single-character pattern. -/
def replaceChar (c : Char) (repl : List Char) (s : List Char) : List Char :=
  s.flatMap (fun x => if x = c then repl else [x])

/-- The escaping chain of the String arm, in source order: backslash first. -/
def escapeJs (s : List Char) : List Char :=
  replaceChar '\t' ['\\', 't']
    (replaceChar '\r' ['\\', 'r']
      (replaceChar '\n' ['\\', 'n']
        (replaceChar '"' ['\\', '"']
          (replaceChar '\\' ['\\', '\\'] s))))

/-- The key rendering of the Object arm: bare if a valid identifier, else
wrapped in double quotes (without further escaping, as in the source). -/
def jsKey (key : List Char) : List Char :=
  if is_valid_js_identifier key then key else '"' :: key ++ ['"']

/-- Rust usize/number to_string for the Int model of serde numbers. -/
def natToCharsGo : Nat → Nat → List Char
  | 0, _ => []
  | f + 1, n =>
    if n < 10 then [Char.ofNat (48 + n)]
    else natToCharsGo f (n / 10) ++ [Char.ofNat (48 + n % 10)]

def natToChars (n : Nat) : List Char := natToCharsGo (n + 1) n

def intToChars (n : Int) : List Char :=
  if n < 0 then '-' :: natToChars n.natAbs else natToChars n.toNat

def indentChars (lvl : Nat) : List Char := List.replicate (2 * lvl) ' '

/-- Vec::join(",\n"): the separator goes between consecutive items. -/
def joinSep (sep : List Char) : List (List Char) → List Char
  | [] => []
  | [x] => x
  | x :: y :: t => x ++ sep ++ joinSep sep (y :: t)

mutual
/-- json_to_js_format (json_to_js.rs): render a JSON value as JavaScript
object-literal source text at the given indent level. -/
def json_to_js_format : Json → Nat → List Char
  | Json.obj fields, lvl =>
    if fields.isEmpty then "{}".toList
    else '{' :: '\n' :: (joinSep [',', '\n'] (objItems fields (lvl + 1))
      ++ '\n' :: indentChars lvl ++ ['}'])
  | Json.arr xs, lvl =>
    if xs.isEmpty then "[]".toList
    else '[' :: '\n' :: (joinSep [',', '\n'] (arrItems xs (lvl + 1))
      ++ '\n' :: indentChars lvl ++ [']'])
  | Json.str s, _ => '"' :: escapeJs s ++ ['"']
  | Json.bool b, _ => if b then "true".toList else "false".toList
  | Json.null, _ => "null".toList
  | Json.num n, _ => intToChars n

def objItems : List (List Char × Json) → Nat → List (List Char)
  | [], _ => []
  | (k, v) :: rest, lvl =>
    (indentChars lvl ++ jsKey k ++ ':' :: ' ' :: json_to_js_format v lvl) :: objItems rest lvl

def arrItems : List Json → Nat → List (List Char)
  | [], _ => []
  | x :: rest, lvl =>
    (indentChars lvl ++ json_to_js_format x lvl) :: arrItems rest lvl
end

/-- json_to_js_object: wrap the data list in a JSON array and render it. -/
def json_to_js_object (data : List Json) : List Char :=
  json_to_js_format (Json.arr data) 0

example : json_to_js_format (Json.obj [("a".toList, Json.null)]) 0
    = "\x7b\n  a: null\n\x7d".toList := by decide

example : json_to_js_format (Json.obj [("class".toList, Json.bool true)]) 0
    = "\x7b\n  \"class\": true\n\x7d".toList := by decide

theorem valid_identifier_iff (key : List Char) :
    is_valid_js_identifier key = true
      ↔ (matchesIdentRegex key = true ∧ key ∉ reservedWords) := by
  unfold is_valid_js_identifier
  rw [Bool.and_eq_true]
  constructor
  · rintro ⟨h1, h2⟩
    refine ⟨h1, fun hmem => ?_⟩
    have hc : reservedWords.contains key = true := List.elem_iff.mpr hmem
    rw [hc] at h2
    exact absurd h2 (by simp)
  · rintro ⟨h1, h2⟩
    refine ⟨h1, ?_⟩
    cases hcont : reservedWords.contains key with
    | false => rfl
    | true => exact absurd (List.elem_iff.mp hcont) h2

/-- **C7.** An object key is rendered bare exactly when it matches the
identifier pattern and is not a reserved word; otherwise it is rendered
wrapped in double quotes. -/
theorem key_rendering_iff (key : List Char) :
    (jsKey key = key ↔ (matchesIdentRegex key = true ∧ key ∉ reservedWords))
    ∧ (¬(matchesIdentRegex key = true ∧ key ∉ reservedWords) →
        jsKey key = '"' :: key ++ ['"']) := by
  have hquote : ¬ is_valid_js_identifier key = true → jsKey key = '"' :: key ++ ['"'] := by
    intro hbad
    unfold jsKey
    rw [if_neg hbad]
  constructor
  · constructor
    · intro h
      by_contra hbad
      rw [← valid_identifier_iff] at hbad
      rw [hquote hbad] at h
      have hlen := congrArg List.length h
      simp at hlen
      omega
    · intro hgood
      unfold jsKey
      rw [if_pos ((valid_identifier_iff key).mpr hgood)]
  · intro hbad
    rw [← valid_identifier_iff] at hbad
    exact hquote hbad

/-- Concrete instance of key rendering: the reserved word class is quoted. -/
theorem key_rendering_iff_witness :
    jsKey "class".toList = '"' :: "class".toList ++ ['"'] :=
  (key_rendering_iff "class".toList).2 (by decide)

/-- The single-pass per-character escaping map the spec describes. -/
def escChar (c : Char) : List Char :=
  if c = '\\' then ['\\', '\\']
  else if c = '"' then ['\\', '"']
  else if c = '\n' then ['\\', 'n']
  else if c = '\r' then ['\\', 'r']
  else if c = '\t' then ['\\', 't']
  else [c]

theorem replaceChar_append (c : Char) (repl a b : List Char) :
    replaceChar c repl (a ++ b) = replaceChar c repl a ++ replaceChar c repl b := by
  unfold replaceChar
  rw [List.flatMap_append]

theorem escapeJs_eq_escChar (t : List Char) : escapeJs t = t.flatMap escChar := by
  induction t with
  | nil => rfl
  | cons c t ih =>
    have hsplit : escapeJs (c :: t) = escapeJs [c] ++ escapeJs t := by
      show escapeJs ([c] ++ t) = _
      unfold escapeJs
      rw [replaceChar_append, replaceChar_append, replaceChar_append,
        replaceChar_append, replaceChar_append]
    rw [hsplit, ih, List.flatMap_cons]
    congr 1
    by_cases h1 : c = '\\'
    · subst h1; rfl
    by_cases h2 : c = '"'
    · subst h2; rfl
    by_cases h3 : c = '\n'
    · subst h3; rfl
    by_cases h4 : c = '\r'
    · subst h4; rfl
    by_cases h5 : c = '\t'
    · subst h5; rfl
    show escapeJs [c] = escChar c
    unfold escapeJs replaceChar escChar
    simp [h1, h2, h3, h4, h5]

/-- **C8.** The string arm emits the value double-quoted, with exactly the
backslash, double-quote, newline, carriage-return and tab characters
backslash-escaped: the sequential replace chain, applied backslash-first,
coincides with the single-pass per-character escaping map, so the
backslashes inserted by later steps are never re-escaped. -/
theorem string_escaping_exact (s : List Char) :
    escapeJs s = s.flatMap escChar
    ∧ json_to_js_format (Json.str s) 0 = '"' :: s.flatMap escChar ++ ['"'] := by
  refine ⟨escapeJs_eq_escChar s, ?_⟩
  rw [show json_to_js_format (Json.str s) 0 = '"' :: escapeJs s ++ ['"'] from rfl,
    escapeJs_eq_escChar s]

/-! ## A JavaScript object-literal parser.

Modelled from the spec: the round-trip property reads the transcoder output
back "as JavaScript object-literal syntax"; the repository itself contains
no such parser. Strings are double-quoted with the usual backslash escapes
and may not contain raw line terminators; object keys are bare identifiers
or double-quoted strings; whitespace is insignificant between tokens. -/

def isWsChar (c : Char) : Bool := c = ' ' || c = '\n' || c = '\t' || c = '\r'

def skipWs (s : List Char) : List Char := s.dropWhile isWsChar

def parseStringBody : List Char → Option (List Char × List Char)
  | [] => none
  | c :: rest =>
    if c = '"' then some ([], rest)
    else if c = '\\' then
      match rest with
      | [] => none
      | e :: rest' =>
        if e = '\\' then (parseStringBody rest').map (fun p => ('\\' :: p.1, p.2))
        else if e = '"' then (parseStringBody rest').map (fun p => ('"' :: p.1, p.2))
        else if e = 'n' then (parseStringBody rest').map (fun p => ('\n' :: p.1, p.2))
        else if e = 'r' then (parseStringBody rest').map (fun p => ('\r' :: p.1, p.2))
        else if e = 't' then (parseStringBody rest').map (fun p => ('\t' :: p.1, p.2))
        else none
    else if c = '\n' || c = '\r' then none
    else (parseStringBody rest).map (fun p => (c :: p.1, p.2))

def digitVal (c : Char) : Nat := c.toNat - 48

def parseDigitsAux : Nat → List Char → Nat × List Char
  | acc, [] => (acc, [])
  | acc, c :: rest =>
    if c.isDigit then parseDigitsAux (10 * acc + digitVal c) rest
    else (acc, c :: rest)

def parseNumber (s : List Char) : Option (Json × List Char) :=
  match s with
  | [] => none
  | c :: rest =>
    if c = '-' then
      match rest with
      | [] => none
      | d :: _ =>
        if d.isDigit then
          some (Json.num (-(((parseDigitsAux 0 rest).1 : Nat) : Int)),
            (parseDigitsAux 0 rest).2)
        else none
    else if c.isDigit then
      some (Json.num ((parseDigitsAux 0 (c :: rest)).1 : Int),
        (parseDigitsAux 0 (c :: rest)).2)
    else none

def dropLit (lit s : List Char) : Option (List Char) :=
  if lit.isPrefixOf s then some (s.drop lit.length) else none

def parseKey (s : List Char) : Option (List Char × List Char) :=
  match s with
  | [] => none
  | c :: rest =>
    if c = '"' then parseStringBody rest
    else
      if ((c :: rest).takeWhile identTailChar).isEmpty then none
      else some ((c :: rest).takeWhile identTailChar,
        (c :: rest).drop ((c :: rest).takeWhile identTailChar).length)

mutual
def jsParseValue : Nat → List Char → Option (Json × List Char)
  | 0, _ => none
  | fuel + 1, s =>
    match skipWs s with
    | [] => none
    | c :: rest =>
      if c = '{' then
        if (skipWs rest).head? = some '}' then some (Json.obj [], (skipWs rest).tail)
        else (jsParseObjItems fuel (skipWs rest)).map (fun p => (Json.obj p.1, p.2))
      else if c = '[' then
        if (skipWs rest).head? = some ']' then some (Json.arr [], (skipWs rest).tail)
        else (jsParseArrItems fuel (skipWs rest)).map (fun p => (Json.arr p.1, p.2))
      else if c = '"' then
        (parseStringBody rest).map (fun p => (Json.str p.1, p.2))
      else if c = 'n' then
        (dropLit "ull".toList rest).map (fun r => (Json.null, r))
      else if c = 't' then
        (dropLit "rue".toList rest).map (fun r => (Json.bool true, r))
      else if c = 'f' then
        (dropLit "alse".toList rest).map (fun r => (Json.bool false, r))
      else parseNumber (c :: rest)

def jsParseObjItems : Nat → List Char → Option (List (List Char × Json) × List Char)
  | 0, _ => none
  | fuel + 1, s =>
    (parseKey (skipWs s)).bind (fun kr =>
      if (skipWs kr.2).head? = some ':' then
        (jsParseValue fuel (skipWs kr.2).tail).bind (fun vr =>
          if (skipWs vr.2).head? = some ',' then
            (jsParseObjItems fuel (skipWs vr.2).tail).map
              (fun p => ((kr.1, vr.1) :: p.1, p.2))
          else if (skipWs vr.2).head? = some '}' then
            some ([(kr.1, vr.1)], (skipWs vr.2).tail)
          else none)
      else none)

def jsParseArrItems : Nat → List Char → Option (List Json × List Char)
  | 0, _ => none
  | fuel + 1, s =>
    (jsParseValue fuel s).bind (fun vr =>
      if (skipWs vr.2).head? = some ',' then
        (jsParseArrItems fuel (skipWs vr.2).tail).map (fun p => (vr.1 :: p.1, p.2))
      else if (skipWs vr.2).head? = some ']' then
        some ([vr.1], (skipWs vr.2).tail)
      else none)
end

def jsParse (s : List Char) : Option Json :=
  match jsParseValue (s.length + 1) s with
  | some (v, r) => if skipWs r = [] then some v else none
  | none => none

example : jsParse ("\x7b\n  a: null\n\x7d".toList)
    = some (Json.obj [("a".toList, Json.null)]) := rfl

example : jsParse ("[\n  1,\n  -25,\n  \"x\\ny\"\n]".toList)
    = some (Json.arr [Json.num 1, Json.num (-25), Json.str ['x', '\n', 'y']]) := rfl

example : jsParse (json_to_js_format (Json.obj [(['a', '"', 'b'], Json.null)]) 0)
    = none := rfl

/-! ## Round-trip of the transcoder through the parser -/

/-- A key character the unescaped key quoting can carry safely. -/
def keyCharOk (c : Char) : Bool := !(c = '"' || c = '\\' || c = '\n' || c = '\r')

mutual
/-- Every object key, at every nesting level, avoids the characters that the
transcoder would need to escape inside a quoted key but does not. -/
def goodKeys : Json → Bool
  | Json.obj fields => goodKeysObj fields
  | Json.arr xs => goodKeysArr xs
  | Json.null => true
  | Json.bool _ => true
  | Json.num _ => true
  | Json.str _ => true

def goodKeysObj : List (List Char × Json) → Bool
  | [] => true
  | (k, v) :: rest => k.all keyCharOk && goodKeys v && goodKeysObj rest

def goodKeysArr : List Json → Bool
  | [] => true
  | x :: rest => goodKeys x && goodKeysArr rest
end

mutual
/-- Parser fuel sufficient for a value. -/
def fuelVal : Json → Nat
  | Json.obj fields => 1 + fuelObj fields
  | Json.arr xs => 1 + fuelArr xs
  | Json.null => 1
  | Json.bool _ => 1
  | Json.num _ => 1
  | Json.str _ => 1

def fuelObj : List (List Char × Json) → Nat
  | [] => 1
  | (_, v) :: rest => 1 + fuelVal v + fuelObj rest

def fuelArr : List Json → Nat
  | [] => 1
  | x :: rest => 1 + fuelVal x + fuelArr rest
end

def noDigitHead : List Char → Bool
  | [] => true
  | c :: _ => !c.isDigit

theorem skipWs_cons_neg {c : Char} {t : List Char} (h : isWsChar c = false) :
    skipWs (c :: t) = c :: t := by
  unfold skipWs
  rw [List.dropWhile_cons]
  simp [h]

theorem skipWs_cons_pos {c : Char} {t : List Char} (h : isWsChar c = true) :
    skipWs (c :: t) = skipWs t := by
  unfold skipWs
  rw [List.dropWhile_cons]
  simp [h]

theorem skipWs_append_ws {w : List Char} (h : w.all isWsChar = true) (t : List Char) :
    skipWs (w ++ t) = skipWs t := by
  induction w with
  | nil => rfl
  | cons c w ih =>
    simp only [List.all_cons, Bool.and_eq_true] at h
    show skipWs (c :: (w ++ t)) = _
    rw [skipWs_cons_pos h.1]
    exact ih h.2

theorem skipWs_idem (s : List Char) : skipWs (skipWs s) = skipWs s := by
  induction s with
  | nil => rfl
  | cons c t ih =>
    cases hc : isWsChar c with
    | true => rw [skipWs_cons_pos hc]; exact ih
    | false => rw [skipWs_cons_neg hc, skipWs_cons_neg hc]

theorem indent_all_ws (lvl : Nat) : (indentChars lvl).all isWsChar = true := by
  unfold indentChars
  rw [List.all_eq_true]
  intro c hc
  rw [List.eq_of_mem_replicate hc]
  decide

theorem ws_not_digit {c : Char} (h : isWsChar c = true) : c.isDigit = false := by
  simp [isWsChar] at h
  rcases h with ((rfl | rfl) | rfl) | rfl <;> decide

theorem identHead_not_ws {c : Char} (h : identHeadChar c = true) : isWsChar c = false := by
  cases hw : isWsChar c with
  | false => rfl
  | true =>
    simp [isWsChar] at hw
    rcases hw with ((rfl | rfl) | rfl) | rfl <;> exact absurd h (by decide)

theorem noDigitHead_of_skipWs {t : List Char} {c : Char} {r : List Char}
    (h : skipWs t = c :: r) (hc : c.isDigit = false) : noDigitHead t = true := by
  cases t with
  | nil => simp [skipWs] at h
  | cons a t' =>
    cases ha : isWsChar a with
    | true => simp [noDigitHead, ws_not_digit ha]
    | false =>
      rw [skipWs_cons_neg ha] at h
      injection h with h1 _
      subst h1
      simp [noDigitHead, hc]

theorem takeWhile_all_stop {p : Char → Bool} {l : List Char} (hl : l.all p = true)
    {d : Char} (hd : p d = false) (r : List Char) :
    (l ++ d :: r).takeWhile p = l := by
  induction l with
  | nil =>
    show (d :: r).takeWhile p = []
    rw [List.takeWhile_cons]
    simp [hd]
  | cons a l ih =>
    simp only [List.all_cons, Bool.and_eq_true] at hl
    show ((a :: (l ++ d :: r)).takeWhile p) = a :: l
    rw [List.takeWhile_cons]
    simp only [hl.1, if_true]
    rw [ih hl.2]

theorem parseStringBody_key {k : List Char} (hk : k.all keyCharOk = true) (r : List Char) :
    parseStringBody (k ++ '"' :: r) = some (k, r) := by
  induction k with
  | nil =>
    show parseStringBody ('"' :: r) = some ([], r)
    unfold parseStringBody
    rfl
  | cons c k ih =>
    simp only [List.all_cons, Bool.and_eq_true] at hk
    obtain ⟨hc, hk'⟩ := hk
    simp only [keyCharOk, Bool.not_eq_true', Bool.or_eq_false_iff, decide_eq_false_iff_not]
      at hc
    obtain ⟨⟨⟨h1, h2⟩, h3⟩, h4⟩ := hc
    show parseStringBody (c :: (k ++ '"' :: r)) = some (c :: k, r)
    unfold parseStringBody
    rw [if_neg h1, if_neg h2, if_neg (by simp [h3, h4]), ih hk']
    rfl

theorem parseStringBody_escaped (s : List Char) (r : List Char) :
    parseStringBody (s.flatMap escChar ++ '"' :: r) = some (s, r) := by
  induction s with
  | nil =>
    show parseStringBody ('"' :: r) = some ([], r)
    unfold parseStringBody
    rfl
  | cons c s ih =>
    rw [List.flatMap_cons, List.append_assoc]
    by_cases h1 : c = '\\'
    · subst h1
      have e : escChar '\\' ++ (s.flatMap escChar ++ '"' :: r)
          = '\\' :: '\\' :: (s.flatMap escChar ++ '"' :: r) := rfl
      rw [e]
      simp [parseStringBody, ih]
    by_cases h2 : c = '"'
    · subst h2
      have e : escChar '"' ++ (s.flatMap escChar ++ '"' :: r)
          = '\\' :: '"' :: (s.flatMap escChar ++ '"' :: r) := rfl
      rw [e]
      simp [parseStringBody, ih]
    by_cases h3 : c = '\n'
    · subst h3
      have e : escChar '\n' ++ (s.flatMap escChar ++ '"' :: r)
          = '\\' :: 'n' :: (s.flatMap escChar ++ '"' :: r) := rfl
      rw [e]
      simp [parseStringBody, ih]
    by_cases h4 : c = '\r'
    · subst h4
      have e : escChar '\r' ++ (s.flatMap escChar ++ '"' :: r)
          = '\\' :: 'r' :: (s.flatMap escChar ++ '"' :: r) := rfl
      rw [e]
      simp [parseStringBody, ih]
    by_cases h5 : c = '\t'
    · subst h5
      have e : escChar '\t' ++ (s.flatMap escChar ++ '"' :: r)
          = '\\' :: 't' :: (s.flatMap escChar ++ '"' :: r) := rfl
      rw [e]
      simp [parseStringBody, ih]
    · have ec : escChar c = [c] := by
        unfold escChar
        rw [if_neg h1, if_neg h2, if_neg h3, if_neg h4, if_neg h5]
      rw [ec]
      show parseStringBody (c :: (s.flatMap escChar ++ '"' :: r)) = some (c :: s, r)
      unfold parseStringBody
      rw [if_neg h2, if_neg h1, if_neg (by simp [h3, h4]), ih]
      rfl

theorem digitVal_ofNat {d : Nat} (h : d < 10) : digitVal (Char.ofNat (48 + d)) = d := by
  interval_cases d <;> decide

theorem isDigit_ofNat {d : Nat} (h : d < 10) : (Char.ofNat (48 + d)).isDigit = true := by
  interval_cases d <;> decide

theorem natToCharsGo_irrel : ∀ f f' n, n < f → n < f' →
    natToCharsGo f n = natToCharsGo f' n := by
  intro f
  induction f with
  | zero => intro f' n h _; exact absurd h (by omega)
  | succ f ih =>
    intro f' n hf hf'
    cases f' with
    | zero => exact absurd hf' (by omega)
    | succ f' =>
      show (if n < 10 then _ else natToCharsGo f (n / 10) ++ _)
          = (if n < 10 then _ else natToCharsGo f' (n / 10) ++ _)
      by_cases h10 : n < 10
      · rw [if_pos h10, if_pos h10]
      · rw [if_neg h10, if_neg h10, ih f' (n / 10) (by omega) (by omega)]

theorem natToChars_eq (n : Nat) : natToChars n =
    if n < 10 then [Char.ofNat (48 + n)]
    else natToChars (n / 10) ++ [Char.ofNat (48 + n % 10)] := by
  show natToCharsGo (n + 1) n = _
  show (if n < 10 then _ else natToCharsGo n (n / 10) ++ _) = _
  by_cases h10 : n < 10
  · rw [if_pos h10, if_pos h10]
  · rw [if_neg h10, if_neg h10,
      natToCharsGo_irrel n (n / 10 + 1) (n / 10) (by omega) (by omega)]
    rfl

theorem natToChars_all_digit (n : Nat) : (natToChars n).all Char.isDigit = true := by
  induction n using Nat.strong_induction_on with
  | _ n ih =>
    rw [natToChars_eq]
    by_cases h10 : n < 10
    · rw [if_pos h10]
      simp [isDigit_ofNat h10]
    · rw [if_neg h10]
      rw [List.all_append]
      refine (Bool.and_eq_true ..).mpr ⟨ih (n / 10) (by omega), ?_⟩
      simp [isDigit_ofNat (Nat.mod_lt n (by omega))]

theorem natToChars_foldl : ∀ n acc, (natToChars n).foldl (fun a c => 10 * a + digitVal c) acc
    = acc * 10 ^ (natToChars n).length + n := by
  intro n
  induction n using Nat.strong_induction_on with
  | _ n ih =>
    intro acc
    rw [natToChars_eq]
    by_cases h10 : n < 10
    · rw [if_pos h10]
      simp [digitVal_ofNat h10]
      ring
    · rw [if_neg h10]
      rw [List.foldl_append, ih (n / 10) (by omega)]
      have hd := digitVal_ofNat (show n % 10 < 10 from Nat.mod_lt n (by omega))
      simp only [List.foldl_cons, List.foldl_nil, List.length_append, List.length_cons,
        List.length_nil]
      rw [hd]
      have hmod := Nat.div_add_mod n 10
      set P := 10 ^ (natToChars (n / 10)).length with hP
      calc 10 * (acc * P + n / 10) + n % 10
          = acc * (P * 10) + (10 * (n / 10) + n % 10) := by ring
        _ = acc * 10 ^ ((natToChars (n / 10)).length + 0 + 1) + n := by
            rw [hmod, hP, pow_succ]

theorem natToChars_head_digit (n : Nat) :
    ∃ c t, natToChars n = c :: t ∧ c.isDigit = true := by
  rw [natToChars_eq]
  by_cases h10 : n < 10
  · rw [if_pos h10]
    exact ⟨_, _, rfl, isDigit_ofNat h10⟩
  · rw [if_neg h10]
    obtain ⟨c, t, hct, hcd⟩ := natToChars_head_digit (n / 10)
    exact ⟨c, t ++ [Char.ofNat (48 + n % 10)], by rw [hct]; rfl, hcd⟩
termination_by n
decreasing_by omega

theorem parseDigitsAux_spec {ds : List Char} (hd : ds.all Char.isDigit = true)
    {r : List Char} (hr : noDigitHead r = true) : ∀ acc,
    parseDigitsAux acc (ds ++ r) = (ds.foldl (fun a c => 10 * a + digitVal c) acc, r) := by
  induction ds with
  | nil =>
    intro acc
    cases r with
    | nil => rfl
    | cons c t =>
      simp only [noDigitHead, Bool.not_eq_true'] at hr
      show parseDigitsAux acc (c :: t) = (acc, c :: t)
      unfold parseDigitsAux
      rw [if_neg (by simp [hr])]
  | cons d ds ih =>
    intro acc
    simp only [List.all_cons, Bool.and_eq_true] at hd
    show parseDigitsAux acc (d :: (ds ++ r)) = _
    unfold parseDigitsAux
    rw [if_pos hd.1, ih hd.2]
    rfl

theorem parseNumber_natToChars (m : Nat) {r : List Char} (hr : noDigitHead r = true) :
    parseNumber (natToChars m ++ r) = some (Json.num (m : Int), r) := by
  obtain ⟨c, t, hct, hcd⟩ := natToChars_head_digit m
  have hps := parseDigitsAux_spec (natToChars_all_digit m) hr 0
  rw [natToChars_foldl] at hps
  rw [hct] at hps ⊢
  rw [List.cons_append] at hps
  show parseNumber (c :: (t ++ r)) = _
  unfold parseNumber
  show (if c = '-' then
      match t ++ r with
      | [] => none
      | d :: _ =>
        if d.isDigit = true then
          some (Json.num (-(((parseDigitsAux 0 (t ++ r)).1 : Nat) : Int)),
            (parseDigitsAux 0 (t ++ r)).2)
        else none
    else if c.isDigit = true then
      some (Json.num (((parseDigitsAux 0 (c :: (t ++ r))).1 : Nat) : Int),
        (parseDigitsAux 0 (c :: (t ++ r))).2)
    else none) = some (Json.num (m : Int), r)
  rw [if_neg (fun h => by subst h; exact absurd hcd (by decide)), if_pos hcd, hps]
  simp

theorem parseNumber_intToChars (n : Int) {r : List Char} (hr : noDigitHead r = true) :
    parseNumber (intToChars n ++ r) = some (Json.num n, r) := by
  unfold intToChars
  by_cases hneg : n < 0
  · rw [if_pos hneg]
    obtain ⟨c, t, hct, hcd⟩ := natToChars_head_digit n.natAbs
    have hps := parseDigitsAux_spec (natToChars_all_digit n.natAbs) hr 0
    rw [natToChars_foldl] at hps
    show parseNumber ('-' :: (natToChars n.natAbs ++ r)) = _
    unfold parseNumber
    show (if '-' = '-' then
        match natToChars n.natAbs ++ r with
        | [] => none
        | d :: _ =>
          if d.isDigit = true then
            some (Json.num (-(((parseDigitsAux 0 (natToChars n.natAbs ++ r)).1 : Nat) : Int)),
              (parseDigitsAux 0 (natToChars n.natAbs ++ r)).2)
          else none
      else if ('-' : Char).isDigit = true then
        some (Json.num (((parseDigitsAux 0 ('-' :: (natToChars n.natAbs ++ r))).1 : Nat) : Int),
          (parseDigitsAux 0 ('-' :: (natToChars n.natAbs ++ r))).2)
      else none) = some (Json.num n, r)
    rw [if_pos rfl, hct, List.cons_append]
    show (if c.isDigit = true then
        some (Json.num (-(((parseDigitsAux 0 (c :: (t ++ r))).1 : Nat) : Int)),
          (parseDigitsAux 0 (c :: (t ++ r))).2)
      else none) = some (Json.num n, r)
    rw [if_pos hcd]
    rw [hct, List.cons_append] at hps
    rw [hps]
    have hn : -(((0 * 10 ^ (c :: t).length + n.natAbs : Nat) : Int)) = n := by
      simp [Int.ofNat_natAbs_of_nonpos (le_of_lt hneg)]
    rw [hn]
  · rw [if_neg hneg]
    rw [parseNumber_natToChars n.toNat hr]
    have h0 : ((n.toNat : Nat) : Int) = n := Int.toNat_of_nonneg (by omega)
    rw [h0]

theorem dropLit_exact (lit r : List Char) : dropLit lit (lit ++ r) = some r := by
  unfold dropLit
  rw [if_pos (isPrefixOf_iff_ex.mpr ⟨r, rfl⟩), List.drop_left]

theorem parseKey_bare {k : List Char} (hk : matchesIdentRegex k = true) (r' : List Char) :
    parseKey (k ++ ':' :: r') = some (k, ':' :: r') := by
  cases k with
  | nil => exact absurd hk (by decide)
  | cons c kt =>
    simp only [matchesIdentRegex, Bool.and_eq_true] at hk
    obtain ⟨hhead, htail⟩ := hk
    have hall : (c :: kt).all identTailChar = true := by
      rw [List.all_cons]
      refine (Bool.and_eq_true ..).mpr ⟨?_, htail⟩
      simp [identTailChar, hhead]
    have htw : ((c :: kt) ++ ':' :: r').takeWhile identTailChar = c :: kt :=
      takeWhile_all_stop hall (by decide) r'
    show parseKey (c :: (kt ++ ':' :: r')) = _
    unfold parseKey
    show (if c = '"' then parseStringBody (kt ++ ':' :: r')
      else if ((c :: (kt ++ ':' :: r')).takeWhile identTailChar).isEmpty = true then none
      else some ((c :: (kt ++ ':' :: r')).takeWhile identTailChar,
        (c :: (kt ++ ':' :: r')).drop
          ((c :: (kt ++ ':' :: r')).takeWhile identTailChar).length))
      = some (c :: kt, ':' :: r')
    rw [if_neg (fun h => by subst h; exact absurd hhead (by decide))]
    rw [show (c :: (kt ++ ':' :: r')) = ((c :: kt) ++ ':' :: r') from rfl, htw]
    rw [if_neg (by simp)]
    rw [List.drop_left]

theorem parseKey_quoted {k : List Char} (hk : k.all keyCharOk = true) (r : List Char) :
    parseKey ('"' :: (k ++ '"' :: r)) = some (k, r) := by
  unfold parseKey
  show (if ('"' : Char) = '"' then parseStringBody (k ++ '"' :: r)
    else if (('"' :: (k ++ '"' :: r)).takeWhile identTailChar).isEmpty = true then none
    else some (('"' :: (k ++ '"' :: r)).takeWhile identTailChar,
      ('"' :: (k ++ '"' :: r)).drop
        (('"' :: (k ++ '"' :: r)).takeWhile identTailChar).length))
    = some (k, r)
  rw [if_pos rfl, parseStringBody_key hk]

theorem jsParseValue_congr (fuel : Nat) {s t : List Char} (h : skipWs s = skipWs t) :
    jsParseValue fuel s = jsParseValue fuel t := by
  cases fuel with
  | zero => rfl
  | succ f =>
    unfold jsParseValue
    rw [h]

theorem jsParseObjItems_congr (fuel : Nat) {s t : List Char} (h : skipWs s = skipWs t) :
    jsParseObjItems fuel s = jsParseObjItems fuel t := by
  cases fuel with
  | zero => rfl
  | succ f =>
    unfold jsParseObjItems
    rw [h]

theorem jsParseArrItems_congr (fuel : Nat) {s t : List Char} (h : skipWs s = skipWs t) :
    jsParseArrItems fuel s = jsParseArrItems fuel t := by
  cases fuel with
  | zero => rfl
  | succ f =>
    unfold jsParseArrItems
    rw [jsParseValue_congr f h]

theorem fuelVal_pos (v : Json) : 1 ≤ fuelVal v := by
  cases v <;> simp [fuelVal]

theorem fuelObj_pos (fields : List (List Char × Json)) : 1 ≤ fuelObj fields := by
  cases fields with
  | nil => simp [fuelObj]
  | cons p rest => cases p; simp [fuelObj]; omega

theorem fuelArr_pos (xs : List Json) : 1 ≤ fuelArr xs := by
  cases xs with
  | nil => simp [fuelArr]
  | cons x rest => simp [fuelArr]; omega

theorem digit_not_ws {c : Char} (h : c.isDigit = true) : isWsChar c = false := by
  cases hw : isWsChar c with
  | false => rfl
  | true => rw [ws_not_digit hw] at h; exact absurd h (by simp)

theorem digit_dispatch {c : Char} (h : c.isDigit = true) :
    c ≠ '{' ∧ c ≠ '[' ∧ c ≠ '"' ∧ c ≠ 'n' ∧ c ≠ 't' ∧ c ≠ 'f' := by
  refine ⟨?_, ?_, ?_, ?_, ?_, ?_⟩ <;> (intro he; subst he; exact absurd h (by decide))

theorem intToChars_head (n : Int) :
    ∃ c t, intToChars n = c :: t ∧ (c = '-' ∨ c.isDigit = true) := by
  unfold intToChars
  by_cases hneg : n < 0
  · rw [if_pos hneg]
    exact ⟨'-', _, rfl, Or.inl rfl⟩
  · rw [if_neg hneg]
    obtain ⟨c, t, hct, hcd⟩ := natToChars_head_digit n.toNat
    exact ⟨c, t, hct, Or.inr hcd⟩

theorem joinSep_single (sep x : List Char) : joinSep sep [x] = x := by
  conv_lhs => unfold joinSep

theorem joinSep_cons2 (sep x y : List Char) (t : List (List Char)) :
    joinSep sep (x :: y :: t) = x ++ sep ++ joinSep sep (y :: t) := by
  conv_lhs => unfold joinSep

theorem objItems_nil (lvl : Nat) : objItems [] lvl = [] := by
  conv_lhs => unfold objItems

theorem arrItems_nil (lvl : Nat) : arrItems [] lvl = [] := by
  conv_lhs => unfold arrItems

theorem objItems_cons (k : List Char) (v : Json) (rest : List (List Char × Json)) (lvl : Nat) :
    objItems ((k, v) :: rest) lvl
      = (indentChars lvl ++ jsKey k ++ ':' :: ' ' :: json_to_js_format v lvl)
        :: objItems rest lvl := by
  conv_lhs => unfold objItems

theorem arrItems_cons (x : Json) (rest : List Json) (lvl : Nat) :
    arrItems (x :: rest) lvl
      = (indentChars lvl ++ json_to_js_format x lvl) :: arrItems rest lvl := by
  conv_lhs => unfold arrItems

theorem render_obj_cons (fields : List (List Char × Json)) (lvl : Nat)
    (h : fields ≠ []) :
    json_to_js_format (Json.obj fields) lvl
      = '{' :: '\n' :: (joinSep [',', '\n'] (objItems fields (lvl + 1))
          ++ '\n' :: indentChars lvl ++ ['}']) := by
  unfold json_to_js_format
  rw [if_neg (by simp [h])]

theorem render_arr_cons (xs : List Json) (lvl : Nat) (h : xs ≠ []) :
    json_to_js_format (Json.arr xs) lvl
      = '[' :: '\n' :: (joinSep [',', '\n'] (arrItems xs (lvl + 1))
          ++ '\n' :: indentChars lvl ++ [']']) := by
  unfold json_to_js_format
  rw [if_neg (by simp [h])]

theorem render_head (v : Json) (lvl : Nat) :
    ∃ c0 t0, json_to_js_format v lvl = c0 :: t0
      ∧ isWsChar c0 = false ∧ c0 ≠ ']' ∧ c0 ≠ '}' := by
  cases v with
  | null =>
    exact ⟨'n', "ull".toList, by unfold json_to_js_format; rfl, by decide, by decide, by decide⟩
  | bool b =>
    cases b with
    | true =>
      exact ⟨'t', "rue".toList, by unfold json_to_js_format; rfl, by decide, by decide, by decide⟩
    | false =>
      exact ⟨'f', "alse".toList, by unfold json_to_js_format; rfl,
        by decide, by decide, by decide⟩
  | str s =>
    exact ⟨'"', escapeJs s ++ ['"'], by unfold json_to_js_format; rfl,
      by decide, by decide, by decide⟩
  | num n =>
    obtain ⟨c, t, hct, hcd⟩ := intToChars_head n
    refine ⟨c, t, by unfold json_to_js_format; exact hct, ?_, ?_, ?_⟩
    · rcases hcd with rfl | hd
      · decide
      · exact digit_not_ws hd
    · rcases hcd with rfl | hd
      · decide
      · intro he; subst he; exact absurd hd (by decide)
    · rcases hcd with rfl | hd
      · decide
      · intro he; subst he; exact absurd hd (by decide)
  | obj fields =>
    cases fields with
    | nil => exact ⟨'{', _, by unfold json_to_js_format; rfl, by decide, by decide, by decide⟩
    | cons p rest =>
      exact ⟨'{', _, render_obj_cons _ _ (by simp), by decide, by decide, by decide⟩
  | arr xs =>
    cases xs with
    | nil => exact ⟨'[', _, by unfold json_to_js_format; rfl, by decide, by decide, by decide⟩
    | cons x rest =>
      exact ⟨'[', _, render_arr_cons _ _ (by simp), by decide, by decide, by decide⟩

theorem jsParseValue_step (f : Nat) {s : List Char} {c : Char} {rest : List Char}
    (h : skipWs s = c :: rest) :
    jsParseValue (f + 1) s =
      (if c = '{' then
        if (skipWs rest).head? = some '}' then some (Json.obj [], (skipWs rest).tail)
        else (jsParseObjItems f (skipWs rest)).map (fun p => (Json.obj p.1, p.2))
      else if c = '[' then
        if (skipWs rest).head? = some ']' then some (Json.arr [], (skipWs rest).tail)
        else (jsParseArrItems f (skipWs rest)).map (fun p => (Json.arr p.1, p.2))
      else if c = '"' then
        (parseStringBody rest).map (fun p => (Json.str p.1, p.2))
      else if c = 'n' then
        (dropLit "ull".toList rest).map (fun r => (Json.null, r))
      else if c = 't' then
        (dropLit "rue".toList rest).map (fun r => (Json.bool true, r))
      else if c = 'f' then
        (dropLit "alse".toList rest).map (fun r => (Json.bool false, r))
      else parseNumber (c :: rest)) := by
  unfold jsParseValue
  rw [h]

theorem jsParseObjItems_step (f : Nat) {s : List Char} {k r1 : List Char}
    {r2 : List Char} {v : Json} {r3 : List Char}
    (hkey : parseKey (skipWs s) = some (k, r1))
    (hcol : skipWs r1 = ':' :: r2)
    (hval : jsParseValue f r2 = some (v, r3)) :
    jsParseObjItems (f + 1) s =
      (if (skipWs r3).head? = some ',' then
        (jsParseObjItems f (skipWs r3).tail).map (fun p => ((k, v) :: p.1, p.2))
      else if (skipWs r3).head? = some '}' then some ([(k, v)], (skipWs r3).tail)
      else none) := by
  conv_lhs => unfold jsParseObjItems
  rw [hkey]
  simp only [Option.some_bind]
  rw [hcol]
  simp only [List.head?_cons, List.tail_cons]
  rw [if_pos trivial, hval]
  simp only [Option.some_bind]

theorem jsParseArrItems_step (f : Nat) {s : List Char} {v : Json} {r1 : List Char}
    (hval : jsParseValue f s = some (v, r1)) :
    jsParseArrItems (f + 1) s =
      (if (skipWs r1).head? = some ',' then
        (jsParseArrItems f (skipWs r1).tail).map (fun p => (v :: p.1, p.2))
      else if (skipWs r1).head? = some ']' then some ([v], (skipWs r1).tail)
      else none) := by
  conv_lhs => unfold jsParseArrItems
  rw [hval]
  simp only [Option.some_bind]

theorem jsKey_head (k : List Char) :
    ∃ c t, jsKey k = c :: t ∧ isWsChar c = false ∧ c ≠ '}' ∧ c ≠ ']' := by
  by_cases hv : is_valid_js_identifier k = true
  · have hreg : matchesIdentRegex k = true := ((valid_identifier_iff k).mp hv).1
    cases k with
    | nil => exact absurd hreg (by decide)
    | cons c kt =>
      simp only [matchesIdentRegex, Bool.and_eq_true] at hreg
      have hh := hreg.1
      refine ⟨c, kt, ?_, identHead_not_ws hh, ?_, ?_⟩
      · unfold jsKey
        rw [if_pos hv]
      · intro he; subst he; exact absurd hh (by decide)
      · intro he; subst he; exact absurd hh (by decide)
  · refine ⟨'"', k ++ ['"'], ?_, by decide, by decide, by decide⟩
    unfold jsKey
    rw [if_neg hv]
    rfl

theorem skipWs_tail_close (lvl : Nat) {c : Char} (hc : isWsChar c = false)
    (rest : List Char) :
    skipWs ('\n' :: (indentChars lvl ++ c :: rest)) = c :: rest := by
  rw [skipWs_cons_pos (by decide), skipWs_append_ws (indent_all_ws lvl)]
  exact skipWs_cons_neg hc

theorem skipWs_J_obj (k : List Char) (v : Json) (fields' : List (List Char × Json))
    (lvl : Nat) (TL : List Char) :
    ∃ X, joinSep [',', '\n'] (objItems ((k, v) :: fields') lvl) ++ TL
      = indentChars lvl ++ (jsKey k ++ X) := by
  rw [objItems_cons]
  cases fields' with
  | nil =>
    rw [objItems_nil, joinSep_single]
    refine ⟨':' :: (' ' :: (json_to_js_format v lvl ++ TL)), ?_⟩
    simp [List.append_assoc]
  | cons q fields'' =>
    obtain ⟨k2, v2⟩ := q
    rw [objItems_cons, joinSep_cons2]
    refine ⟨':' :: (' ' :: (json_to_js_format v lvl ++ (',' :: ('\n' ::
      (joinSep [',', '\n'] ((indentChars lvl ++ jsKey k2 ++ ':' :: ' ' ::
        json_to_js_format v2 lvl) :: objItems fields'' lvl) ++ TL))))), ?_⟩
    simp [List.append_assoc]

theorem skipWs_J_arr (x : Json) (xs' : List Json) (lvl : Nat) (TL : List Char) :
    ∃ X, joinSep [',', '\n'] (arrItems (x :: xs') lvl) ++ TL
      = indentChars lvl ++ (json_to_js_format x lvl ++ X) := by
  rw [arrItems_cons]
  cases xs' with
  | nil =>
    rw [arrItems_nil, joinSep_single]
    refine ⟨TL, ?_⟩
    simp [List.append_assoc]
  | cons y xs'' =>
    rw [arrItems_cons, joinSep_cons2]
    refine ⟨',' :: ('\n' :: (joinSep [',', '\n'] ((indentChars lvl ++
      json_to_js_format y lvl) :: arrItems xs'' lvl) ++ TL)), ?_⟩
    simp [List.append_assoc]

theorem roundtrip_main (fuel : Nat) :
    (∀ v lvl (rest : List Char), goodKeys v = true → fuelVal v ≤ fuel →
      noDigitHead rest = true →
      jsParseValue fuel (json_to_js_format v lvl ++ rest) = some (v, rest))
    ∧ (∀ fields lvl (tail rest : List Char), goodKeysObj fields = true →
        fuelObj fields ≤ fuel → fields ≠ [] → skipWs tail = '}' :: rest →
        jsParseObjItems fuel (joinSep [',', '\n'] (objItems fields lvl) ++ tail)
          = some (fields, rest))
    ∧ (∀ xs lvl (tail rest : List Char), goodKeysArr xs = true →
        fuelArr xs ≤ fuel → xs ≠ [] → skipWs tail = ']' :: rest →
        jsParseArrItems fuel (joinSep [',', '\n'] (arrItems xs lvl) ++ tail)
          = some (xs, rest)) := by
  induction fuel using Nat.strong_induction_on with
  | _ fuel ih =>
  cases fuel with
  | zero =>
    refine ⟨?_, ?_, ?_⟩
    · intro v _ _ _ hf _
      exact absurd (le_trans (fuelVal_pos v) hf) (by omega)
    · intro fields _ _ _ _ hf _ _
      exact absurd (le_trans (fuelObj_pos fields) hf) (by omega)
    · intro xs _ _ _ _ hf _ _
      exact absurd (le_trans (fuelArr_pos xs) hf) (by omega)
  | succ f =>
    obtain ⟨ihP, ihQ, ihR⟩ := ih f (by omega)
    refine ⟨?_, ?_, ?_⟩
    · intro v lvl rest hg hf hr
      cases v with
      | null =>
        have hskip : skipWs (json_to_js_format Json.null lvl ++ rest)
            = 'n' :: ("ull".toList ++ rest) := by
          have hrender : json_to_js_format Json.null lvl = "null".toList := by
            unfold json_to_js_format
            rfl
          rw [hrender]
          show skipWs ('n' :: ("ull".toList ++ rest)) = _
          exact skipWs_cons_neg (by decide)
        rw [jsParseValue_step f hskip, if_neg (by decide), if_neg (by decide),
          if_neg (by decide), if_pos rfl, dropLit_exact]
        rfl
      | bool b =>
        cases b with
        | true =>
          have hskip : skipWs (json_to_js_format (Json.bool true) lvl ++ rest)
              = 't' :: ("rue".toList ++ rest) := by
            have hrender : json_to_js_format (Json.bool true) lvl = "true".toList := by
              unfold json_to_js_format
              rfl
            rw [hrender]
            show skipWs ('t' :: ("rue".toList ++ rest)) = _
            exact skipWs_cons_neg (by decide)
          rw [jsParseValue_step f hskip, if_neg (by decide), if_neg (by decide),
            if_neg (by decide), if_neg (by decide), if_pos rfl, dropLit_exact]
          rfl
        | false =>
          have hskip : skipWs (json_to_js_format (Json.bool false) lvl ++ rest)
              = 'f' :: ("alse".toList ++ rest) := by
            have hrender : json_to_js_format (Json.bool false) lvl = "false".toList := by
              unfold json_to_js_format
              rfl
            rw [hrender]
            show skipWs ('f' :: ("alse".toList ++ rest)) = _
            exact skipWs_cons_neg (by decide)
          rw [jsParseValue_step f hskip, if_neg (by decide), if_neg (by decide),
            if_neg (by decide), if_neg (by decide), if_neg (by decide), if_pos rfl,
            dropLit_exact]
          rfl
      | num n =>
        have hrender : json_to_js_format (Json.num n) lvl = intToChars n := by
          unfold json_to_js_format
          rfl
        obtain ⟨c, t, hct, hcd⟩ := intToChars_head n
        have hnws : isWsChar c = false := by
          rcases hcd with rfl | hd
          · decide
          · exact digit_not_ws hd
        have hskip : skipWs (json_to_js_format (Json.num n) lvl ++ rest)
            = c :: (t ++ rest) := by
          rw [hrender, hct, List.cons_append]
          exact skipWs_cons_neg hnws
        have hd6 : c ≠ '{' ∧ c ≠ '[' ∧ c ≠ '"' ∧ c ≠ 'n' ∧ c ≠ 't' ∧ c ≠ 'f' := by
          rcases hcd with rfl | hd
          · exact ⟨by decide, by decide, by decide, by decide, by decide, by decide⟩
          · exact digit_dispatch hd
        rw [jsParseValue_step f hskip, if_neg hd6.1, if_neg hd6.2.1, if_neg hd6.2.2.1,
          if_neg hd6.2.2.2.1, if_neg hd6.2.2.2.2.1, if_neg hd6.2.2.2.2.2,
          ← List.cons_append, ← hct, ← hrender]
        rw [hrender]
        exact parseNumber_intToChars n hr
      | str s =>
        have hrender : json_to_js_format (Json.str s) lvl
            = '"' :: (escapeJs s ++ ['"']) := by
          unfold json_to_js_format
          rfl
        have hskip : skipWs (json_to_js_format (Json.str s) lvl ++ rest)
            = '"' :: ((escapeJs s ++ ['"']) ++ rest) := by
          rw [hrender]
          show skipWs ('"' :: ((escapeJs s ++ ['"']) ++ rest)) = _
          exact skipWs_cons_neg (by decide)
        rw [jsParseValue_step f hskip, if_neg (by decide), if_neg (by decide), if_pos rfl]
        have harg : (escapeJs s ++ ['"']) ++ rest = s.flatMap escChar ++ ('"' :: rest) := by
          rw [escapeJs_eq_escChar, List.append_assoc]
          rfl
        rw [harg, parseStringBody_escaped]
        rfl
      | obj fields =>
        cases fields with
        | nil =>
          have hskip : skipWs (json_to_js_format (Json.obj []) lvl ++ rest)
              = '{' :: ('}' :: rest) := by
            have hrender : json_to_js_format (Json.obj []) lvl = ['{', '}'] := by
              unfold json_to_js_format
              rfl
            rw [hrender]
            show skipWs ('{' :: ('}' :: rest)) = _
            exact skipWs_cons_neg (by decide)
          rw [jsParseValue_step f hskip, if_pos rfl,
            skipWs_cons_neg (show isWsChar '}' = false by decide)]
          simp only [List.head?_cons, List.tail_cons]
          rw [if_pos trivial]
        | cons p fields' =>
          obtain ⟨k, v⟩ := p
          have hg' : goodKeysObj ((k, v) :: fields') = true := by
            have h := hg
            unfold goodKeys at h
            exact h
          have hf' : fuelObj ((k, v) :: fields') ≤ f := by
            have hfv : fuelVal (Json.obj ((k, v) :: fields'))
                = 1 + fuelObj ((k, v) :: fields') := by
              unfold fuelVal
              rfl
            omega
          have hrender := render_obj_cons ((k, v) :: fields') lvl (by simp)
          have hinput : json_to_js_format (Json.obj ((k, v) :: fields')) lvl ++ rest
              = '{' :: ('\n' :: (joinSep [',', '\n'] (objItems ((k, v) :: fields') (lvl + 1))
                  ++ ('\n' :: (indentChars lvl ++ ('}' :: rest))))) := by
            rw [hrender]
            simp [List.append_assoc]
          have hskip : skipWs (json_to_js_format (Json.obj ((k, v) :: fields')) lvl ++ rest)
              = '{' :: ('\n' :: (joinSep [',', '\n'] (objItems ((k, v) :: fields') (lvl + 1))
                  ++ ('\n' :: (indentChars lvl ++ ('}' :: rest))))) := by
            rw [hinput]
            exact skipWs_cons_neg (by decide)
          rw [jsParseValue_step f hskip, if_pos rfl]
          obtain ⟨X, hX⟩ := skipWs_J_obj k v fields' (lvl + 1)
            ('\n' :: (indentChars lvl ++ ('}' :: rest)))
          obtain ⟨c0, t0, hc0, hws0, hbr0, _⟩ := jsKey_head k
          have hlead : skipWs ('\n' :: (joinSep [',', '\n']
              (objItems ((k, v) :: fields') (lvl + 1))
              ++ ('\n' :: (indentChars lvl ++ ('}' :: rest)))))
              = c0 :: (t0 ++ X) := by
            rw [skipWs_cons_pos (by decide), hX,
              skipWs_append_ws (indent_all_ws (lvl + 1)), hc0, List.cons_append]
            exact skipWs_cons_neg hws0
          rw [hlead]
          simp only [List.head?_cons]
          rw [if_neg (by simp [hbr0])]
          have hcongr : jsParseObjItems f (c0 :: (t0 ++ X))
              = jsParseObjItems f (joinSep [',', '\n']
                  (objItems ((k, v) :: fields') (lvl + 1))
                  ++ ('\n' :: (indentChars lvl ++ ('}' :: rest)))) := by
            apply jsParseObjItems_congr
            rw [hX, skipWs_append_ws (indent_all_ws (lvl + 1)), hc0, List.cons_append]
          rw [hcongr, ihQ ((k, v) :: fields') (lvl + 1)
            ('\n' :: (indentChars lvl ++ ('}' :: rest))) rest hg' hf' (by simp)
            (skipWs_tail_close lvl (by decide) rest)]
          rfl
      | arr xs =>
        cases xs with
        | nil =>
          have hskip : skipWs (json_to_js_format (Json.arr []) lvl ++ rest)
              = '[' :: (']' :: rest) := by
            have hrender : json_to_js_format (Json.arr []) lvl = ['[', ']'] := by
              unfold json_to_js_format
              rfl
            rw [hrender]
            show skipWs ('[' :: (']' :: rest)) = _
            exact skipWs_cons_neg (by decide)
          rw [jsParseValue_step f hskip, if_neg (by decide), if_pos rfl,
            skipWs_cons_neg (show isWsChar ']' = false by decide)]
          simp only [List.head?_cons, List.tail_cons]
          rw [if_pos trivial]
        | cons x xs' =>
          have hg' : goodKeysArr (x :: xs') = true := by
            have h := hg
            unfold goodKeys at h
            exact h
          have hf' : fuelArr (x :: xs') ≤ f := by
            have hfv : fuelVal (Json.arr (x :: xs')) = 1 + fuelArr (x :: xs') := by
              unfold fuelVal
              rfl
            omega
          have hrender := render_arr_cons (x :: xs') lvl (by simp)
          have hinput : json_to_js_format (Json.arr (x :: xs')) lvl ++ rest
              = '[' :: ('\n' :: (joinSep [',', '\n'] (arrItems (x :: xs') (lvl + 1))
                  ++ ('\n' :: (indentChars lvl ++ (']' :: rest))))) := by
            rw [hrender]
            simp [List.append_assoc]
          have hskip : skipWs (json_to_js_format (Json.arr (x :: xs')) lvl ++ rest)
              = '[' :: ('\n' :: (joinSep [',', '\n'] (arrItems (x :: xs') (lvl + 1))
                  ++ ('\n' :: (indentChars lvl ++ (']' :: rest))))) := by
            rw [hinput]
            exact skipWs_cons_neg (by decide)
          rw [jsParseValue_step f hskip, if_neg (by decide), if_pos rfl]
          obtain ⟨X, hX⟩ := skipWs_J_arr x xs' (lvl + 1)
            ('\n' :: (indentChars lvl ++ (']' :: rest)))
          obtain ⟨c0, t0, hc0, hws0, hbrk0, _⟩ := render_head x (lvl + 1)
          have hlead : skipWs ('\n' :: (joinSep [',', '\n'] (arrItems (x :: xs') (lvl + 1))
              ++ ('\n' :: (indentChars lvl ++ (']' :: rest)))))
              = c0 :: (t0 ++ X) := by
            rw [skipWs_cons_pos (by decide), hX,
              skipWs_append_ws (indent_all_ws (lvl + 1)), hc0, List.cons_append]
            exact skipWs_cons_neg hws0
          rw [hlead]
          simp only [List.head?_cons]
          rw [if_neg (by simp [hbrk0])]
          have hcongr : jsParseArrItems f (c0 :: (t0 ++ X))
              = jsParseArrItems f (joinSep [',', '\n'] (arrItems (x :: xs') (lvl + 1))
                  ++ ('\n' :: (indentChars lvl ++ (']' :: rest)))) := by
            apply jsParseArrItems_congr
            rw [hX, skipWs_append_ws (indent_all_ws (lvl + 1)), hc0, List.cons_append]
          rw [hcongr, ihR (x :: xs') (lvl + 1)
            ('\n' :: (indentChars lvl ++ (']' :: rest))) rest hg' hf' (by simp)
            (skipWs_tail_close lvl (by decide) rest)]
          rfl
    · intro fields lvl tail rest hg hf hne htail
      cases fields with
      | nil => exact absurd rfl hne
      | cons p fields' =>
        obtain ⟨k, v⟩ := p
        have hgs : k.all keyCharOk = true ∧ goodKeys v = true
            ∧ goodKeysObj fields' = true := by
          have h := hg
          unfold goodKeysObj at h
          simp only [Bool.and_eq_true] at h
          exact ⟨h.1.1, h.1.2, h.2⟩
        have hfo : fuelObj ((k, v) :: fields') = 1 + fuelVal v + fuelObj fields' := by
          conv_lhs => unfold fuelObj
        have hfv : fuelVal v ≤ f := by
          have h1 := fuelObj_pos fields'
          omega
        have hff' : fuelObj fields' ≤ f := by
          have h1 := fuelVal_pos v
          omega
        have hcore : ∀ AFTER : List Char, noDigitHead AFTER = true →
            jsParseObjItems (f + 1) (indentChars lvl ++ (jsKey k ++ (':' :: (' ' ::
              (json_to_js_format v lvl ++ AFTER))))) =
            (if (skipWs AFTER).head? = some ',' then
              (jsParseObjItems f (skipWs AFTER).tail).map (fun p => ((k, v) :: p.1, p.2))
            else if (skipWs AFTER).head? = some '}' then
              some ([(k, v)], (skipWs AFTER).tail)
            else none) := by
          intro AFTER hnd
          have hval : jsParseValue f (' ' :: (json_to_js_format v lvl ++ AFTER))
              = some (v, AFTER) := by
            rw [jsParseValue_congr f (skipWs_cons_pos (by decide))]
            exact ihP v lvl AFTER hgs.2.1 hfv hnd
          have hkey : parseKey (skipWs (indentChars lvl ++ (jsKey k ++ (':' :: (' ' ::
              (json_to_js_format v lvl ++ AFTER))))))
              = some (k, ':' :: (' ' :: (json_to_js_format v lvl ++ AFTER))) := by
            rw [skipWs_append_ws (indent_all_ws lvl)]
            by_cases hvk : is_valid_js_identifier k = true
            · have hjk : jsKey k = k := by
                unfold jsKey
                rw [if_pos hvk]
              rw [hjk]
              have hreg : matchesIdentRegex k = true :=
                ((valid_identifier_iff k).mp hvk).1
              cases k with
              | nil => exact absurd hreg (by decide)
              | cons kc kt =>
                have hh : identHeadChar kc = true := by
                  simp only [matchesIdentRegex, Bool.and_eq_true] at hreg
                  exact hreg.1
                rw [List.cons_append, skipWs_cons_neg (identHead_not_ws hh)]
                exact parseKey_bare hreg _
            · have hjk : jsKey k = '"' :: (k ++ ['"']) := by
                unfold jsKey
                rw [if_neg hvk]
                rfl
              rw [hjk, List.cons_append, skipWs_cons_neg (by decide)]
              have hform : (k ++ ['"']) ++ (':' :: (' ' ::
                  (json_to_js_format v lvl ++ AFTER)))
                  = k ++ ('"' :: (':' :: (' ' :: (json_to_js_format v lvl ++ AFTER)))) := by
                simp [List.append_assoc]
              rw [hform]
              exact parseKey_quoted hgs.1 _
          exact jsParseObjItems_step f hkey (skipWs_cons_neg (by decide)) hval
        cases fields' with
        | nil =>
          rw [objItems_cons, objItems_nil, joinSep_single]
          have hin : (indentChars lvl ++ jsKey k ++ ':' :: ' ' :: json_to_js_format v lvl)
              ++ tail
              = indentChars lvl ++ (jsKey k ++ (':' :: (' ' ::
                (json_to_js_format v lvl ++ tail)))) := by
            simp [List.append_assoc]
          rw [hin, hcore tail (noDigitHead_of_skipWs htail (by decide)), htail]
          simp only [List.head?_cons, List.tail_cons]
          rw [if_neg (by simp), if_pos trivial]
        | cons q fields'' =>
          obtain ⟨k2, v2⟩ := q
          rw [objItems_cons, objItems_cons, joinSep_cons2]
          have hin : ((indentChars lvl ++ jsKey k ++ ':' :: ' ' :: json_to_js_format v lvl)
                ++ [',', '\n'] ++ joinSep [',', '\n'] ((indentChars lvl ++ jsKey k2
                  ++ ':' :: ' ' :: json_to_js_format v2 lvl) :: objItems fields'' lvl))
              ++ tail
              = indentChars lvl ++ (jsKey k ++ (':' :: (' ' ::
                (json_to_js_format v lvl ++ (',' :: ('\n' ::
                  (joinSep [',', '\n'] ((indentChars lvl ++ jsKey k2
                    ++ ':' :: ' ' :: json_to_js_format v2 lvl) :: objItems fields'' lvl)
                    ++ tail))))))) := by
            simp [List.append_assoc]
          rw [hin, hcore _ (by simp [noDigitHead]),
            skipWs_cons_neg (show isWsChar ',' = false by decide)]
          simp only [List.head?_cons, List.tail_cons]
          rw [if_pos trivial,
            jsParseObjItems_congr f (skipWs_cons_pos (show isWsChar '\n' = true by decide)),
            ← objItems_cons,
            ihQ ((k2, v2) :: fields'') lvl tail rest hgs.2.2 hff' (by simp) htail]
          rfl
    · intro xs lvl tail rest hg hf hne htail
      cases xs with
      | nil => exact absurd rfl hne
      | cons x xs' =>
        have hgs : goodKeys x = true ∧ goodKeysArr xs' = true := by
          have h := hg
          unfold goodKeysArr at h
          simp only [Bool.and_eq_true] at h
          exact h
        have hfa : fuelArr (x :: xs') = 1 + fuelVal x + fuelArr xs' := by
          conv_lhs => unfold fuelArr
        have hfv : fuelVal x ≤ f := by
          have h1 := fuelArr_pos xs'
          omega
        have hff' : fuelArr xs' ≤ f := by
          have h1 := fuelVal_pos x
          omega
        have hcore : ∀ AFTER : List Char, noDigitHead AFTER = true →
            jsParseArrItems (f + 1) (indentChars lvl ++ (json_to_js_format x lvl ++ AFTER)) =
            (if (skipWs AFTER).head? = some ',' then
              (jsParseArrItems f (skipWs AFTER).tail).map (fun p => (x :: p.1, p.2))
            else if (skipWs AFTER).head? = some ']' then some ([x], (skipWs AFTER).tail)
            else none) := by
          intro AFTER hnd
          have hval : jsParseValue f (indentChars lvl ++ (json_to_js_format x lvl ++ AFTER))
              = some (x, AFTER) := by
            rw [jsParseValue_congr f (skipWs_append_ws (indent_all_ws lvl) _)]
            exact ihP x lvl AFTER hgs.1 hfv hnd
          exact jsParseArrItems_step f hval
        cases xs' with
        | nil =>
          rw [arrItems_cons, arrItems_nil, joinSep_single]
          have hin : (indentChars lvl ++ json_to_js_format x lvl) ++ tail
              = indentChars lvl ++ (json_to_js_format x lvl ++ tail) := by
            simp [List.append_assoc]
          rw [hin, hcore tail (noDigitHead_of_skipWs htail (by decide)), htail]
          simp only [List.head?_cons, List.tail_cons]
          rw [if_neg (by simp), if_pos trivial]
        | cons y xs'' =>
          rw [arrItems_cons, arrItems_cons, joinSep_cons2]
          have hin : ((indentChars lvl ++ json_to_js_format x lvl) ++ [',', '\n']
                ++ joinSep [',', '\n'] ((indentChars lvl ++ json_to_js_format y lvl)
                  :: arrItems xs'' lvl)) ++ tail
              = indentChars lvl ++ (json_to_js_format x lvl ++ (',' :: ('\n' ::
                (joinSep [',', '\n'] ((indentChars lvl ++ json_to_js_format y lvl)
                  :: arrItems xs'' lvl) ++ tail)))) := by
            simp [List.append_assoc]
          rw [hin, hcore _ (by simp [noDigitHead]),
            skipWs_cons_neg (show isWsChar ',' = false by decide)]
          simp only [List.head?_cons, List.tail_cons]
          rw [if_pos trivial,
            jsParseArrItems_congr f (skipWs_cons_pos (show isWsChar '\n' = true by decide)),
            ← arrItems_cons,
            ihR (y :: xs'') lvl tail rest hgs.2 hff' (by simp) htail]
          rfl

theorem fuel_bound_main (fuel : Nat) :
    (∀ v lvl, fuelVal v ≤ fuel → fuelVal v ≤ (json_to_js_format v lvl).length)
    ∧ (∀ fields lvl, fuelObj fields ≤ fuel → fields ≠ [] →
        fuelObj fields ≤ (joinSep [',', '\n'] (objItems fields lvl)).length + 2)
    ∧ (∀ xs lvl, fuelArr xs ≤ fuel → xs ≠ [] →
        fuelArr xs ≤ (joinSep [',', '\n'] (arrItems xs lvl)).length + 2) := by
  induction fuel using Nat.strong_induction_on with
  | _ fuel ih =>
  cases fuel with
  | zero =>
    refine ⟨?_, ?_, ?_⟩
    · intro v _ hf
      exact absurd (le_trans (fuelVal_pos v) hf) (by omega)
    · intro fields _ hf _
      exact absurd (le_trans (fuelObj_pos fields) hf) (by omega)
    · intro xs _ hf _
      exact absurd (le_trans (fuelArr_pos xs) hf) (by omega)
  | succ f =>
    obtain ⟨ihP, ihQ, ihR⟩ := ih f (by omega)
    refine ⟨?_, ?_, ?_⟩
    · intro v lvl hf
      cases v with
      | null =>
        obtain ⟨c0, t0, hc0, _, _, _⟩ := render_head Json.null lvl
        have h1 : fuelVal Json.null = 1 := rfl
        rw [h1, hc0]
        simp
      | bool b =>
        obtain ⟨c0, t0, hc0, _, _, _⟩ := render_head (Json.bool b) lvl
        have h1 : fuelVal (Json.bool b) = 1 := by
          conv_lhs => unfold fuelVal
        rw [h1, hc0]
        simp
      | num n =>
        obtain ⟨c0, t0, hc0, _, _, _⟩ := render_head (Json.num n) lvl
        have h1 : fuelVal (Json.num n) = 1 := by
          conv_lhs => unfold fuelVal
        rw [h1, hc0]
        simp
      | str t =>
        obtain ⟨c0, t0, hc0, _, _, _⟩ := render_head (Json.str t) lvl
        have h1 : fuelVal (Json.str t) = 1 := by
          conv_lhs => unfold fuelVal
        rw [h1, hc0]
        simp
      | obj fields =>
        cases fields with
        | nil =>
          have hrender : json_to_js_format (Json.obj []) lvl = ['{', '}'] := by
            unfold json_to_js_format
            rfl
          rw [hrender]
          decide
        | cons p fields' =>
          obtain ⟨k, v⟩ := p
          have hfv : fuelVal (Json.obj ((k, v) :: fields'))
              = 1 + fuelObj ((k, v) :: fields') := by
            conv_lhs => unfold fuelVal
          have hq : fuelObj ((k, v) :: fields')
              ≤ (joinSep [',', '\n'] (objItems ((k, v) :: fields') (lvl + 1))).length + 2 :=
            ihQ ((k, v) :: fields') (lvl + 1) (by omega) (by simp)
          rw [hfv, render_obj_cons ((k, v) :: fields') lvl (by simp)]
          simp only [List.length_cons, List.length_append]
          omega
      | arr xs =>
        cases xs with
        | nil =>
          have hrender : json_to_js_format (Json.arr []) lvl = ['[', ']'] := by
            unfold json_to_js_format
            rfl
          rw [hrender]
          decide
        | cons x xs' =>
          have hfv : fuelVal (Json.arr (x :: xs')) = 1 + fuelArr (x :: xs') := by
            conv_lhs => unfold fuelVal
          have hq : fuelArr (x :: xs')
              ≤ (joinSep [',', '\n'] (arrItems (x :: xs') (lvl + 1))).length + 2 :=
            ihR (x :: xs') (lvl + 1) (by omega) (by simp)
          rw [hfv, render_arr_cons (x :: xs') lvl (by simp)]
          simp only [List.length_cons, List.length_append]
          omega
    · intro fields lvl hf hne
      cases fields with
      | nil => exact absurd rfl hne
      | cons p fields' =>
        obtain ⟨k, v⟩ := p
        have hfo : fuelObj ((k, v) :: fields') = 1 + fuelVal v + fuelObj fields' := by
          conv_lhs => unfold fuelObj
        have hpv : fuelVal v ≤ (json_to_js_format v lvl).length := by
          have h1 := fuelObj_pos fields'
          exact ihP v lvl (by omega)
        cases fields' with
        | nil =>
          have h0 : fuelObj ([] : List (List Char × Json)) = 1 := rfl
          rw [objItems_cons, objItems_nil, joinSep_single, hfo, h0]
          simp only [List.length_append, List.length_cons]
          omega
        | cons q fields'' =>
          obtain ⟨k2, v2⟩ := q
          have hq : fuelObj ((k2, v2) :: fields'')
              ≤ (joinSep [',', '\n'] (objItems ((k2, v2) :: fields'') lvl)).length + 2 := by
            have h1 := fuelVal_pos v
            exact ihQ ((k2, v2) :: fields'') lvl (by omega) (by simp)
          rw [objItems_cons, objItems_cons, joinSep_cons2, ← objItems_cons, hfo]
          simp only [List.length_append, List.length_cons, List.length_nil]
          omega
    · intro xs lvl hf hne
      cases xs with
      | nil => exact absurd rfl hne
      | cons x xs' =>
        have hfa : fuelArr (x :: xs') = 1 + fuelVal x + fuelArr xs' := by
          conv_lhs => unfold fuelArr
        have hpv : fuelVal x ≤ (json_to_js_format x lvl).length := by
          have h1 := fuelArr_pos xs'
          exact ihP x lvl (by omega)
        cases xs' with
        | nil =>
          have h0 : fuelArr ([] : List Json) = 1 := rfl
          rw [arrItems_cons, arrItems_nil, joinSep_single, hfa, h0]
          simp only [List.length_append]
          omega
        | cons y xs'' =>
          have hq : fuelArr (y :: xs'')
              ≤ (joinSep [',', '\n'] (arrItems (y :: xs'') lvl)).length + 2 := by
            have h1 := fuelVal_pos x
            exact ihR (y :: xs'') lvl (by omega) (by simp)
          rw [arrItems_cons, arrItems_cons, joinSep_cons2, ← arrItems_cons, hfa]
          simp only [List.length_append, List.length_cons, List.length_nil]
          omega

theorem fuel_le_render (v : Json) (lvl : Nat) :
    fuelVal v ≤ (json_to_js_format v lvl).length :=
  (fuel_bound_main (fuelVal v)).1 v lvl le_rfl

/-- C4 counterexample: the transcoder quotes a non-identifier object key without
escaping the characters inside it (json_to_js.rs line 25), so a key containing a
double quote renders to text that is not valid object-literal syntax, and the
round trip fails. -/
theorem transcoder_roundtrip_counterexample :
    jsParse (json_to_js_format (Json.obj [(['a', '"', 'b'], Json.null)]) 0) = none := rfl

/-- C4 (amended): for every JSON value tree whose object keys, at every nesting
level, contain no double quote, backslash, newline, or carriage return,
rendering it with the JSON-to-JS transcoder and then parsing the resulting text
as JavaScript object-literal syntax yields a value structurally equal to the
original. (The original claim, quantified over all values, fails: see the
counterexample, a key containing a double quote.) -/
theorem transcoder_roundtrip_amended (v : Json) (h : goodKeys v = true) :
    jsParse (json_to_js_format v 0) = some v := by
  have hP := (roundtrip_main ((json_to_js_format v 0).length + 1)).1 v 0 []
    h (le_trans (fuel_le_render v 0) (Nat.le_succ _)) rfl
  rw [List.append_nil] at hP
  unfold jsParse
  rw [hP]
  rfl

theorem transcoder_roundtrip_amended_witness :
    goodKeys (Json.obj [(['a'], Json.arr [Json.num (-3), Json.str ['h', '\n', 'i'],
        Json.bool true, Json.null, Json.obj []])]) = true
    ∧ jsParse (json_to_js_format (Json.obj [(['a'], Json.arr [Json.num (-3),
        Json.str ['h', '\n', 'i'], Json.bool true, Json.null, Json.obj []])]) 0)
      = some (Json.obj [(['a'], Json.arr [Json.num (-3), Json.str ['h', '\n', 'i'],
        Json.bool true, Json.null, Json.obj []])]) :=
  ⟨rfl, transcoder_roundtrip_amended _ rfl⟩

end FLG
